import Mathlib

/-!
# ISO 9660 directory parser and name codec (core/fs/iso9660/iso9660.c)

A shallow embedding of the name codec (iso_mangle_name, iso_convert_name,
iso_compare_name, tolower_str), of the directory walk of iso_find_entry, of the
enumerator iso_readdir, of the inode builders iso_get_inode and iso_iget_root
and of the file reader iso_getfssec, followed by the properties established
about them.

Conventions of the embedding:

* a byte is a `Nat`; a region of memory read through a pointer is the `List Nat`
  of the bytes that start at the pointer; a C string is such a list read up to
  its first NUL, and the end of the list stands for the terminating NUL;
* `int` counters that never go negative are `Nat`; the one counter that can go
  negative (the space counter of iso_mangle_name) is an `Int`; a uint32_t sum
  that can pass 2^32 is written with `% 2 ^ 32`;
* a `while (1)` loop is a step function on the loop's variables, iterated under
  a step budget, so that "the call never returns" is a statement about every
  budget.
-/

namespace Iso9660

/-! ## Memory and C strings -/

/-- Byte at index i of the memory starting at a pointer; past the end of a
string literal or of a NUL-terminated string this is the terminator. -/
def byteAt (s : List Nat) (i : Nat) : Nat := s.getD i 0

/-- The C string held at a pointer: the bytes before the first NUL. -/
def cstr (s : List Nat) : List Nat := s.takeWhile (fun c => c != 0)

/-- The libc strlen. -/
def strlen (s : List Nat) : Nat := (cstr s).length

/-! ## iso_convert_name -/

/-- The for loop of iso_convert_name. The variables are the index i and the
bytes written to dst so far; the first argument bounds the number of iterations
and is len at the call, which the loop cannot exceed since i grows by one per
iteration. The test `i == len - 2` on C ints is written `i + 2 = len`, which
is the same test without the truncated subtraction of `Nat`. -/
def convert_copy (src : List Nat) (len : Nat) : Nat → Nat → List Nat → List Nat × Nat
  | 0, i, out => (out, i)
  | fuel + 1, i, out =>
    if i < len then
      let c := byteAt src i
      if c = 0 then (out, i)
      else if c = 59 ∧ i + 2 = len ∧ byteAt src (i + 1) = 49 then (out, i)
      else convert_copy src len fuel (i + 1) (out ++ [if c = 59 then 46 else c])
    else (out, i)

/-- The while loop of iso_convert_name that removes the terminal dots. The
byte `*(dst - 1)` is the last byte written; when nothing has been written the
C code reads the byte below the buffer, but then `i = 0` and the loop leaves
through `i <= 2` or through its test without changing anything, which is the
result given here. The first argument bounds the iterations and is i at the
call. -/
def convert_strip : Nat → List Nat → Nat → List Nat × Nat
  | 0, out, i => (out, i)
  | fuel + 1, out, i =>
    if out.getLast? = some 46 then
      if i ≤ 2 then (out, i)
      else convert_strip fuel out.dropLast (i - 1)
    else (out, i)

/-- The function iso_convert_name(dst, src, len): the bytes left in dst up to
and including the terminating NUL, and the returned count. -/
def iso_convert_name (src : List Nat) (len : Nat) : List Nat × Nat :=
  let r := convert_copy src len len 0 []
  let t := convert_strip r.2 r.1 r.2
  (t.1 ++ [0], t.2)

/-! ## iso_compare_name -/

/-- The loop `while (i--)` of iso_compare_name: p walks the converted name,
file_name the query, both from index k. -/
def compare_loop (p file_name : List Nat) : Nat → Nat → Nat
  | 0, _ => 1
  | i + 1, k =>
    if (byteAt p k ||| 0x20) ≠ (byteAt file_name k ||| 0x20) then 0
    else compare_loop p file_name i (k + 1)

/-- The function iso_compare_name(de_name, len, file_name): 1 on match, 0
otherwise. -/
def iso_compare_name (de_name : List Nat) (len : Nat) (file_name : List Nat) : Nat :=
  let r := iso_convert_name de_name len
  if r.2 ≠ strlen file_name then 0
  else compare_loop r.1 file_name r.2 0

/-! ## tolower_str -/

/-- The function tolower_str(str): the memory at str after the call. -/
def tolower_str : List Nat → List Nat
  | [] => []
  | c :: rest =>
    if c = 0 then c :: rest
    else (if 65 ≤ c ∧ c ≤ 90 then c + 0x20 else c) :: tolower_str rest

/-! ## iso_mangle_name -/

/-- Modelled from the spec: not_whitespace is declared in a header of the core
that is not part of the sources at hand; the name codec "copies characters
until encountering whitespace (treated as terminator)", whitespace being any
byte up to and including the space character, NUL included. -/
def not_whitespace (c : Nat) : Bool := decide (32 < c)

/-- The first loop of iso_mangle_name. The source is consumed from its head;
buf is the memory at the original dst, d the index the moving dst points at,
i the space counter. A write outside buf (a destination overflow) is not
recorded. -/
def mangle_copy : List Nat → List Nat → Nat → Int → List Nat × Nat × Int
  | [], buf, d, i => (buf, d, i)
  | c :: rest, buf, d, i =>
    if not_whitespace c then
      if c = 47 ∧ byteAt rest 0 = 47 then mangle_copy rest buf d (i - 1)
      else mangle_copy rest (buf.set d c) (d + 1) (i - 1)
    else (buf, d, i)

/-- The second loop of iso_mangle_name, which steps dst back over trailing
dots and slashes. -/
def mangle_strip (buf : List Nat) : Nat → Int → Nat × Int
  | 0, i => (0, i)
  | d + 1, i =>
    if byteAt buf d ≠ 46 ∧ byteAt buf d ≠ 47 then (d + 1, i)
    else mangle_strip buf d (i + 1)

/-- The final for loop of iso_mangle_name, which stores n NUL bytes from
index d on. -/
def mangle_pad : Nat → List Nat → Nat → List Nat
  | 0, buf, _ => buf
  | n + 1, buf, d => mangle_pad n (buf.set d 0) (d + 1)

/-- The function iso_mangle_name(dst, src): the memory at dst after the call.
FILENAME_MAX is a constant of the core headers and is taken as a parameter. -/
def iso_mangle_name (FILENAME_MAX : Nat) (dst src : List Nat) : List Nat :=
  let r := mangle_copy src dst 0 ((FILENAME_MAX : Int) - 1)
  let t := mangle_strip r.1 r.2.1 r.2.2
  mangle_pad (t.2 + 1).toNat r.1 t.1

/-! ## Directory records and inodes -/

/-- The block shift that iso_fs_init stores in fs->block_shift. -/
def BLOCK_SHIFT : Nat := 11

/-- The block size `1 << fs->block_shift` that iso_fs_init stores in
fs->block_size, which is what BLOCK_SIZE(fs) reads. -/
def BLOCK_SIZE : Nat := 1 <<< BLOCK_SHIFT

/-- A little-endian 32-bit read `*(uint32_t *)p` at index k of the memory m. -/
def le32 (m : List Nat) (k : Nat) : Nat :=
  byteAt m k + 256 * byteAt m (k + 1) + 65536 * byteAt m (k + 2) + 16777216 * byteAt m (k + 3)

/-- Modelled from the spec: struct iso_dir_entry is declared in iso9660_fs.h,
which is not part of the sources at hand. The record has the fields "length
(total record length, 0 marks end-of-block padding), flags, extent, size,
name_len, name", its minimum length is 33 bytes and "the name field immediately
follows the fixed header fields"; the offsets are those of an ISO 9660 directory
record. This is the field length, at offset 0. -/
def de_length (de : List Nat) : Nat := byteAt de 0

/-- Modelled from the spec: the field extent of struct iso_dir_entry (see
de_length), read as `*(uint32_t *)de->extent`, at offset 2. -/
def de_extent (de : List Nat) : Nat := le32 de 2

/-- Modelled from the spec: the field size of struct iso_dir_entry (see
de_length), read as `*(uint32_t *)de->size`, at offset 10. -/
def de_size (de : List Nat) : Nat := le32 de 10

/-- Modelled from the spec: the field flags of struct iso_dir_entry (see
de_length), at offset 25. -/
def de_flags (de : List Nat) : Nat := byteAt de 25

/-- Modelled from the spec: the field name_len of struct iso_dir_entry (see
de_length), at offset 32. -/
def de_name_len (de : List Nat) : Nat := byteAt de 32

/-- Modelled from the spec: the field name of struct iso_dir_entry (see
de_length), the memory from offset 33 on. -/
def de_name (de : List Nat) : List Nat := de.drop 33

/-- The two inode modes that get_inode_mode returns. -/
inductive inode_mode where
  | I_DIR
  | I_FILE
deriving DecidableEq

/-- The function get_inode_mode(flags). -/
def get_inode_mode (flags : Nat) : inode_mode :=
  if flags &&& 0x02 ≠ 0 then inode_mode.I_DIR else inode_mode.I_FILE

/-- The fields of struct inode that this file system sets: pvt holds the
extent, the first block of the data. -/
structure inode where
  mode : inode_mode
  size : Nat
  pvt : Nat
  blocks : Nat
deriving DecidableEq

/-- The name and name length that iso_find_entry and iso_readdir hand to the
name codec: the code under "Handling the special case" in both functions. -/
def normalize_name (de : List Nat) : List Nat × Nat :=
  if de_name_len de = 1 ∧ byteAt (de_name de) 0 = 0 then ([46], de_name_len de)
  else if de_name_len de = 1 ∧ byteAt (de_name de) 0 = 1 then ([46, 46], 2)
  else (de_name de, de_name_len de)

/-! ## iso_get_inode and iso_iget_root

The fields size and blocks of struct inode, the field offset of struct file and
the fields block_shift and block_size of struct fs_info are declared in headers
that are not part of the sources at hand. On the 32-bit target of this core
they are 32-bit integers, as are all the values that this file reads from them
or stores into them (uint32_t casts and uint32_t locals), so that the sum
`size + BLOCK_SIZE(fs) - 1` is a uint32_t sum. The allocation of the inode is
taken to succeed. -/

/-- The function iso_get_inode(fs, de): the inode built from the directory
record de. -/
def iso_get_inode (de : List Nat) : inode :=
  { mode := get_inode_mode (de_flags de),
    size := de_size de % 2 ^ 32,
    pvt := de_extent de % 2 ^ 32,
    blocks := ((de_size de % 2 ^ 32 + BLOCK_SIZE - 1) % 2 ^ 32) >>> BLOCK_SHIFT }

/-- The function iso_iget_root(fs): the inode built from the root directory
record root that iso_fs_init copied into the superblock information. -/
def iso_iget_root (root : List Nat) : inode :=
  { mode := inode_mode.I_DIR,
    size := de_size root % 2 ^ 32,
    pvt := de_extent root % 2 ^ 32,
    blocks := ((de_size root % 2 ^ 32 + BLOCK_SIZE - 1) % 2 ^ 32) >>> BLOCK_SHIFT }

/-! ## iso_getfssec -/

/-- What a call of iso_getfssec does: the returned byte count, file->offset
after the call, the flag stored in have_more, and the first block and the
number of blocks passed to cdrom_read_blocks. -/
structure getfssec_out where
  ret : Nat
  offset : Nat
  have_more : Bool
  block : Nat
  blocks : Nat
deriving DecidableEq

/-- The function iso_getfssec(file, buf, blocks, have_more) on a file with the
inode ino and file->offset = offset. The locals bytes_read, bytes_left and
blocks_left are uint32_t, and the block number is a sum of two uint32_t
values. -/
def iso_getfssec (ino : inode) (offset : Nat) (blocks : Nat) : getfssec_out :=
  let bytes_read := (blocks <<< BLOCK_SHIFT) % 2 ^ 32
  let bytes_left := (ino.size + 2 ^ 32 - offset) % 2 ^ 32
  let blocks_left := ((bytes_left + BLOCK_SIZE - 1) % 2 ^ 32) >>> BLOCK_SHIFT
  let block := (ino.pvt + (offset >>> BLOCK_SHIFT)) % 2 ^ 32
  let blocks2 := if blocks > blocks_left then blocks_left else blocks
  if bytes_read ≥ bytes_left then
    { ret := bytes_left, offset := (offset + bytes_left) % 2 ^ 32, have_more := false,
      block := block, blocks := blocks2 }
  else
    { ret := bytes_read, offset := (offset + bytes_read) % 2 ^ 32, have_more := true,
      block := block, blocks := blocks2 }

/-! ## iso_find_entry

The block cache is a function get_cache from block numbers to blocks of
BLOCK_SIZE bytes. The record `de` is the memory at the pointer: the rest of the
held block, or the bytes assembled in tmpde. The bytes of tmpde beyond those
copied are indeterminate in C and are not part of the list; they are read only
for a record whose name is longer than the record. The size of struct
iso_dir_entry is declared in a header that is not part of the sources at hand;
tmpde is taken to have room for the bytes copied into it. The function returns
the pointer `de`: the value returned records where it points and the first
de_len bytes found there at the return. -/

/-- The variables of the loop of iso_find_entry that live across iterations,
and reqs, the block numbers passed to get_cache so far. The variable cs is
only ever assigned and is left out. -/
structure FindState where
  i : Nat
  offset : Nat
  data : Option (List Nat)
  dir_block : Nat
  reqs : List Nat
deriving DecidableEq

/-- The pointer that iso_find_entry returns on a match, with the bytes of the
record it points at when the function returns. It points either into the block
held by the cache, which outlives the call, or, after `de = &tmpde`, at the
local variable tmpde of iso_find_entry, whose lifetime ends with the return. -/
inductive DePtr where
  | cache (de : List Nat)
  | tmpde (de : List Nat)
deriving DecidableEq

/-- The outcome of one iteration of the loop of iso_find_entry: the loop goes
on, or the function returns r (none for NULL). -/
inductive FindStep where
  | cont (s : FindState)
  | done (r : Option DePtr) (s : FindState)
deriving DecidableEq

/-- The state that a step of iso_find_entry carries. -/
def FindStep.state : FindStep → FindState
  | FindStep.cont s => s
  | FindStep.done _ s => s

/-- The end of an iteration of iso_find_entry, from the test `de_len < 33`
on; tmp tells whether `de = &tmpde` has been executed in this iteration. -/
def find_check (dname : List Nat) (de_len : Nat) (tmp : Bool) (de : List Nat)
    (s : FindState) : FindStep :=
  if de_len < 33 then FindStep.done none s
  else if iso_compare_name (normalize_name de).1 (normalize_name de).2 dname ≠ 0 then
    FindStep.done
      (some (if tmp then DePtr.tmpde (de.take de_len) else DePtr.cache (de.take de_len))) s
  else FindStep.cont s

/-- An iteration of iso_find_entry from the line `de = data + offset` on, with
the block data held. -/
def find_body (get_cache : Nat → List Nat) (dname : List Nat) (blocks : Nat)
    (data : List Nat) (s : FindState) : FindStep :=
  let de := data.drop s.offset
  let de_len := de_length de
  if de_len = 0 then FindStep.cont s
  else
    let offset := s.offset + de_len
    if offset ≥ BLOCK_SIZE then
      let slop := de_len + BLOCK_SIZE - offset
      let tmpde := de.take slop
      let offset2 := offset &&& (BLOCK_SIZE - 1)
      if offset2 ≠ 0 then
        if s.i + 1 > blocks then FindStep.done none { s with i := s.i + 1, offset := offset2 }
        else
          find_check dname de_len true (tmpde ++ (get_cache s.dir_block).take offset2)
            { i := s.i + 1, offset := offset2, data := some (get_cache s.dir_block),
              dir_block := s.dir_block + 1, reqs := s.reqs ++ [s.dir_block] }
      else find_check dname de_len true tmpde { s with offset := offset2 }
    else find_check dname de_len false de { s with offset := offset }

/-- One iteration of the `while (1)` loop of iso_find_entry. -/
def find_step (get_cache : Nat → List Nat) (dname : List Nat) (blocks : Nat)
    (s : FindState) : FindStep :=
  match s.data with
  | none =>
    if s.i + 1 > blocks then FindStep.done none { s with i := s.i + 1 }
    else
      find_body get_cache dname blocks (get_cache s.dir_block)
        { i := s.i + 1, offset := 0, data := some (get_cache s.dir_block),
          dir_block := s.dir_block + 1, reqs := s.reqs ++ [s.dir_block] }
  | some data => find_body get_cache dname blocks data s

/-- The loop of iso_find_entry run for at most fuel iterations: none when the
function has not returned within them. -/
def find_loop (get_cache : Nat → List Nat) (dname : List Nat) (blocks : Nat) :
    Nat → FindState → Option (Option DePtr × FindState)
  | 0, _ => none
  | fuel + 1, s =>
    match find_step get_cache dname blocks s with
    | FindStep.done r s2 => some (r, s2)
    | FindStep.cont s2 => find_loop get_cache dname blocks fuel s2

/-- The first k iterations of the loop of iso_find_entry: the state after
them when all of them go on, else the return that ends them. -/
def find_run (get_cache : Nat → List Nat) (dname : List Nat) (blocks : Nat) :
    Nat → FindState → FindStep
  | 0, s => FindStep.cont s
  | k + 1, s =>
    match find_step get_cache dname blocks s with
    | FindStep.cont s2 => find_run get_cache dname blocks k s2
    | d => d

/-- The state in which iso_find_entry enters its loop. -/
def find_init (dir : inode) : FindState :=
  { i := 0, offset := 0, data := none, dir_block := dir.pvt, reqs := [] }

/-- The function iso_find_entry(dname, inode) run for at most fuel iterations
of its loop: none when it has not returned within them, some none when it
returns NULL, some (some de) when it returns the pointer de. -/
def iso_find_entry (get_cache : Nat → List Nat) (dname : List Nat) (dir : inode)
    (fuel : Nat) : Option (Option DePtr) :=
  (find_loop get_cache dname dir.blocks fuel (find_init dir)).map (fun r => r.1)

/-- The function iso_iget(dname, parent): none when iso_find_entry has not
returned within fuel iterations, some none for NULL, else the inode that
iso_get_inode builds. iso_get_inode reads the fields of the record only after
its call of new_iso_inode. A pointer into the cache then still points at the
record. A pointer to tmpde points into the frame of the call of iso_find_entry
that has returned: what is read there is what the later calls have left in that
memory, which clobber gives as a function of the bytes tmpde held at the
return. -/
def iso_iget (get_cache : Nat → List Nat) (clobber : List Nat → List Nat)
    (dname : List Nat) (parent : inode) (fuel : Nat) : Option (Option inode) :=
  match iso_find_entry get_cache dname parent fuel with
  | none => none
  | some none => some none
  | some (some (DePtr.cache de)) => some (some (iso_get_inode de))
  | some (some (DePtr.tmpde de)) => some (some (iso_get_inode (clobber de)))

/-! ## iso_readdir -/

/-- The listing record that iso_readdir fills in; d_name is the memory of the
name buffer up to and including the terminating NUL. -/
structure dirent where
  d_ino : Nat
  d_off : Nat
  d_reclen : Nat
  d_type : inode_mode
  d_name : List Nat
deriving DecidableEq

/-- The variables of the loop of iso_readdir that live across iterations:
file_offset is file->offset, the cursor of the open directory, a 32-bit value
like the offset of iso_getfssec; reqs lists the block numbers passed to
get_cache so far. -/
structure ReaddirState where
  file_offset : Nat
  block : Nat
  offset : Nat
  i : Nat
  data : Option (List Nat)
  reqs : List Nat
deriving DecidableEq

/-- The two ways in which iso_readdir ends its loop: it returns NULL, or it
leaves the loop through `break` with the record de of length de_len. -/
inductive ReaddirExit where
  | null (s : ReaddirState)
  | brk (de_len : Nat) (de : List Nat) (s : ReaddirState)
deriving DecidableEq

/-- The state in which the loop of iso_readdir ends. -/
def ReaddirExit.state : ReaddirExit → ReaddirState
  | ReaddirExit.null s => s
  | ReaddirExit.brk _ _ s => s

/-- The outcome of one iteration of the loop of iso_readdir: the loop goes on,
or it ends. -/
inductive ReaddirStep where
  | cont (s : ReaddirState)
  | exit (e : ReaddirExit)
deriving DecidableEq

/-- The end of an iteration of iso_readdir, from the test `de_len < 33` on. -/
def readdir_check (de_len : Nat) (de : List Nat) (s : ReaddirState) : ReaddirStep :=
  if de_len < 33 then ReaddirStep.exit (ReaddirExit.null s)
  else ReaddirStep.exit (ReaddirExit.brk de_len de s)

/-- An iteration of iso_readdir from the line `de = data + offset` on, with the
block data held. -/
def readdir_body (get_cache : Nat → List Nat) (blocks : Nat)
    (data : List Nat) (s : ReaddirState) : ReaddirStep :=
  let de := data.drop s.offset
  let de_len := de_length de
  if de_len = 0 then
    ReaddirStep.cont
      { s with data := none,
               file_offset := ((s.file_offset + BLOCK_SIZE - 1) % 2 ^ 32) >>> BLOCK_SHIFT }
  else
    let offset := s.offset + de_len
    if offset ≥ BLOCK_SIZE then
      let slop := de_len + BLOCK_SIZE - offset
      let tmpde := de.take slop
      let offset2 := offset &&& (BLOCK_SIZE - 1)
      if offset2 ≠ 0 then
        if s.i + 1 > blocks then
          ReaddirStep.exit (ReaddirExit.null { s with i := s.i + 1, offset := offset2 })
        else
          readdir_check de_len (tmpde ++ (get_cache s.block).take offset2)
            { s with i := s.i + 1, offset := offset2, data := some (get_cache s.block),
                     block := s.block + 1, reqs := s.reqs ++ [s.block] }
      else readdir_check de_len tmpde { s with offset := offset2 }
    else readdir_check de_len de { s with offset := offset }

/-- One iteration of the `while (1)` loop of iso_readdir. -/
def readdir_step (get_cache : Nat → List Nat) (blocks : Nat) (s : ReaddirState) : ReaddirStep :=
  match s.data with
  | none =>
    if s.i + 1 > blocks then ReaddirStep.exit (ReaddirExit.null { s with i := s.i + 1 })
    else
      readdir_body get_cache blocks (get_cache s.block)
        { s with i := s.i + 1, data := some (get_cache s.block),
                 block := s.block + 1, reqs := s.reqs ++ [s.block] }
  | some data => readdir_body get_cache blocks data s

/-- The loop of iso_readdir run for at most fuel iterations: none when it has
not ended within them, else the way it ended. -/
def readdir_loop (get_cache : Nat → List Nat) (blocks : Nat) :
    Nat → ReaddirState → Option ReaddirExit
  | 0, _ => none
  | fuel + 1, s =>
    match readdir_step get_cache blocks s with
    | ReaddirStep.cont s2 => readdir_loop get_cache blocks fuel s2
    | ReaddirStep.exit e => some e

/-- The state in which iso_readdir enters its loop, for the cursor
file_offset. The block number is a sum of two uint32_t values, as in
iso_getfssec, and wraps at 2^32 before it is stored in the block_t variable;
the later `block++` are written without wrap-around. -/
def readdir_init (dir : inode) (file_offset : Nat) : ReaddirState :=
  { file_offset := file_offset,
    block := (dir.pvt + (file_offset >>> BLOCK_SHIFT)) % 2 ^ 32,
    offset := file_offset &&& (BLOCK_SIZE - 1),
    i := 0, data := none, reqs := [] }

/-- The listing record built after the loop of iso_readdir. The allocation of
the record is taken to succeed. -/
def readdir_dirent (de_len : Nat) (de : List Nat) (file_offset : Nat) : dirent :=
  { d_ino := 0,
    d_off := file_offset,
    d_reclen := de_len,
    d_type := get_inode_mode (de_flags de),
    d_name := tolower_str (iso_convert_name (normalize_name de).1 (normalize_name de).2).1 }

/-- What iso_readdir does once its loop has ended: the returned record (none
for NULL), the new file->offset, and the block numbers requested from the
cache. -/
def readdir_finish : ReaddirExit → Option dirent × Nat × List Nat
  | ReaddirExit.null s => (none, s.file_offset, s.reqs)
  | ReaddirExit.brk de_len de s =>
    (some (readdir_dirent de_len de s.file_offset), (s.file_offset + de_len) % 2 ^ 32,
      s.reqs)

/-- The function iso_readdir(file) on the directory dir with file->offset =
file_offset, run for at most fuel iterations of its loop: none when the loop has
not ended within them, else the returned record (none for NULL), the new
file->offset, and the block numbers requested from the cache. -/
def iso_readdir (get_cache : Nat → List Nat) (dir : inode) (file_offset : Nat) (fuel : Nat) :
    Option (Option dirent × Nat × List Nat) :=
  (readdir_loop get_cache dir.blocks fuel (readdir_init dir file_offset)).map readdir_finish

/-- A caller that lists a directory: iso_readdir is called again and again on
the same handle, from the cursor file_offset, until it returns NULL; at most
calls calls are made, each with the loop budget fuel. The result is the records
returned, in order, and the final cursor. -/
def readdir_all (get_cache : Nat → List Nat) (dir : inode) (fuel : Nat) :
    Nat → Nat → List dirent → Option (List dirent × Nat)
  | 0, _, _ => none
  | calls + 1, file_offset, acc =>
    match iso_readdir get_cache dir file_offset fuel with
    | none => none
    | some (none, off, _) => some (acc, off)
    | some (some d, off, _) => readdir_all get_cache dir fuel calls off (acc ++ [d])

/-- The cursor after k calls of iso_readdir that each return a record, from
the cursor file_offset on; none when one of the calls returns NULL or does not
end within fuel iterations. -/
def readdir_seek (get_cache : Nat → List Nat) (dir : inode) (fuel : Nat) :
    Nat → Nat → Option Nat
  | 0, file_offset => some file_offset
  | k + 1, file_offset =>
    match iso_readdir get_cache dir file_offset fuel with
    | some (some _, off, _) => readdir_seek get_cache dir fuel k off
    | _ => none

/-! ## Sample directories -/

/-- The four bytes of a 32-bit value, least significant first. -/
def bytesLE (v : Nat) : List Nat := [v % 256, v / 256 % 256, v / 65536 % 256, v / 16777216 % 256]

/-- An ISO 9660 directory record for the raw name name: length, extended
attribute length, extent and size in both byte orders, seven date bytes, flags,
unit size, interleave, volume sequence number, name length, name, and a padding
byte when that makes the length even. -/
def mkRecord (name : List Nat) (flags extent size : Nat) : List Nat :=
  let len := 33 + name.length + (name.length + 1) % 2
  [len, 0] ++ bytesLE extent ++ (bytesLE extent).reverse
    ++ bytesLE size ++ (bytesLE size).reverse
    ++ List.replicate 7 0 ++ [flags, 0, 0, 1, 0, 0, 1, name.length] ++ name
    ++ List.replicate ((name.length + 1) % 2) 0

/-- The record of the directory itself, with the name byte 0x00. -/
def recDot : List Nat := mkRecord [0] 2 20 2048

/-- The record of the parent directory, with the name byte 0x01. -/
def recDotDot : List Nat := mkRecord [1] 2 18 2048

/-- The record of the file FOO.TXT;1. -/
def recFoo : List Nat := mkRecord [70, 79, 79, 46, 84, 88, 84, 59, 49] 0 30 100

/-- The record of the file BAR. -/
def recBar : List Nat := mkRecord [66, 65, 82] 0 31 5

/-- The query "foo.txt". -/
def nameFoo : List Nat := [102, 111, 111, 46, 116, 120, 116]

/-- The query "baz". -/
def nameBaz : List Nat := [98, 97, 122]

/-- A block with the records ".", "..", "FOO.TXT;1", "BAR" (146 bytes) and
zero padding up to 2048 bytes. -/
def blockAll : List Nat := recDot ++ recDotDot ++ recFoo ++ recBar ++ List.replicate 1902 0

/-- A block with the records ".", ".." (68 bytes) and zero padding up to 2048
bytes. -/
def blockDots : List Nat := recDot ++ recDotDot ++ List.replicate 1980 0

/-- A block with the record "FOO.TXT;1" (42 bytes) and zero padding up to 2048
bytes. -/
def blockFoo : List Nat := recFoo ++ List.replicate 2006 0

/-- The one-block directory ".", "..", "FOO.TXT;1", "BAR" at block 20. -/
def cacheOne : Nat → List Nat :=
  fun b => if b = 20 then blockAll else []

/-- The inode of the one-block directory. -/
def dirOne : inode := { mode := inode_mode.I_DIR, size := 2048, pvt := 20, blocks := 1 }

/-- A two-block directory at blocks 20 and 21: ".", ".." and padding in the
first block, "FOO.TXT;1" and padding in the second. -/
def cacheTwo : Nat → List Nat :=
  fun b => if b = 20 then blockDots else if b = 21 then blockFoo else []

/-- The inode of the two-block directory. -/
def dirTwo : inode := { mode := inode_mode.I_DIR, size := 4096, pvt := 20, blocks := 2 }

/-- A record of 34 + su bytes for the file "A": the name is followed by su
bytes of system use area. -/
def recFill (su : Nat) : List Nat :=
  [34 + su, 0] ++ bytesLE 40 ++ (bytesLE 40).reverse ++ bytesLE 1 ++ (bytesLE 1).reverse
    ++ List.replicate 7 0 ++ [0, 0, 0, 1, 0, 0, 1, 1, 65] ++ List.replicate su 0

/-- A block filled with seven records of 254 bytes and one of 250 bytes, 2028
bytes in all, followed by the first 20 bytes of the record "FOO.TXT;1". -/
def blockHead : List Nat :=
  recFill 220 ++ recFill 220 ++ recFill 220 ++ recFill 220 ++ recFill 220 ++ recFill 220
    ++ recFill 220 ++ recFill 216 ++ recFoo.take 20

/-- The block that follows blockHead: the last 22 bytes of the record
"FOO.TXT;1" and zero padding up to 2048 bytes. -/
def blockTail : List Nat := recFoo.drop 20 ++ List.replicate 2026 0

/-- A two-block directory at blocks 20 and 21 whose record "FOO.TXT;1" starts at
offset 2028 of the first block and ends at offset 22 of the second. -/
def cacheStraddle : Nat → List Nat :=
  fun b => if b = 20 then blockHead else if b = 21 then blockTail else []

/-- The state of the loop of iso_find_entry on cacheStraddle when it reaches
the record that straddles the boundary. -/
def stateStraddle : FindState :=
  { i := 1, offset := 2028, data := some blockHead, dir_block := 21, reqs := [20] }

/-- The record of a file "BIG" whose size field holds 0xFFFFFFFF. -/
def recHuge : List Nat := mkRecord [66, 73, 71] 0 40 4294967295

/-- A root directory record with extent 20 and size 4096. -/
def recRoot : List Nat := mkRecord [0] 2 20 4096

/-- A record like recRoot whose flags byte is 0. -/
def recRootPlain : List Nat := mkRecord [0] 0 20 4096

/-- A block with eight records of 255 bytes, 2040 bytes in all, followed by a
length byte 20 and seven zero bytes: the record of 20 bytes would end at offset
12 of the next block. -/
def blockShort : List Nat :=
  recFill 221 ++ recFill 221 ++ recFill 221 ++ recFill 221 ++ recFill 221 ++ recFill 221
    ++ recFill 221 ++ recFill 221 ++ [20, 0, 0, 0, 0, 0, 0, 0]

/-- A two-block directory at blocks 20 and 21: blockShort, then a block of
zero bytes. -/
def cacheShort : Nat → List Nat :=
  fun b => if b = 20 then blockShort else if b = 21 then List.replicate 2048 0 else []

/-- A block with two records of 34 bytes for the file "A", the record
"FOO.TXT;1" at offset 68, and zero padding up to 2048 bytes. -/
def blockThree : List Nat := recFill 0 ++ recFill 0 ++ recFoo ++ List.replicate 1938 0

/-- A two-block directory at blocks 20 and 21: ".", ".." and padding in the
first block, two records "A" and "FOO.TXT;1" and padding in the second. -/
def cacheSkip : Nat → List Nat :=
  fun b => if b = 20 then blockDots else if b = 21 then blockThree else []

/-- A block filled to its last byte: the records "." and "..", seven records
of 254 bytes and one of 202 bytes for the file "A", 2048 bytes in all. -/
def blockFull : List Nat :=
  recDot ++ recDotDot ++ recFill 220 ++ recFill 220 ++ recFill 220 ++ recFill 220
    ++ recFill 220 ++ recFill 220 ++ recFill 220 ++ recFill 168

/-- A one-block directory at block 20, filled to its last byte; block 21 does
not belong to it and holds the record "FOO.TXT;1" of something else. -/
def cacheFull : Nat → List Nat :=
  fun b => if b = 20 then blockFull else if b = 21 then blockFoo else []

/-- A directory whose first block is the last block that 32 bits can number,
0xFFFFFFFF, and whose second block is reached by the 32-bit sum
0xFFFFFFFF + 1 = 0: block 0 holds ".", "..", "FOO.TXT;1", "BAR". -/
def cacheWrap : Nat → List Nat :=
  fun b => if b = 4294967295 then blockDots else if b = 0 then blockAll else []

/-- The inode of the directory of cacheWrap. -/
def dirWrap : inode := { mode := inode_mode.I_DIR, size := 4096, pvt := 4294967295, blocks := 2 }

/-- The state of the loop of iso_find_entry on cacheShort when it reaches the
length byte 20 at offset 2040. -/
def stateShort : FindState :=
  { i := 1, offset := 2040, data := some blockShort, dir_block := 21, reqs := [20] }

/-- The state of the loop of iso_readdir on cacheShort, called with the cursor
2040, when it has fetched block 20. -/
def rstateShort : ReaddirState :=
  { file_offset := 2040, block := 21, offset := 2040, i := 1, data := some blockShort,
    reqs := [20] }

/-! ## Reference functions on byte lists

These are not translations of code: they are the list-level descriptions
against which the loops above are compared. -/

/-- The n bytes of the memory src that start at index i. -/
def srcWindow (src : List Nat) (i n : Nat) : List Nat := (List.range' i n).map (byteAt src)

/-- What the for loop of iso_convert_name copies out of the len bytes of a raw
name: it stops at a NUL or at a final ";1", and turns every other semicolon
into a dot. -/
def copySpec : List Nat → List Nat
  | [] => []
  | c :: rest =>
    if c = 0 then []
    else if c = 59 ∧ rest = [49] then []
    else (if c = 59 then 46 else c) :: copySpec rest

/-- A path with every run of slashes reduced to its last slash. -/
def collapseSlashes : List Nat → List Nat
  | [] => []
  | c :: rest =>
    if c = 47 ∧ byteAt rest 0 = 47 then collapseSlashes rest
    else c :: collapseSlashes rest

/-- The bytes that iso_mangle_name removes from the end of a key: dot and
slash. -/
def isDotSlash (c : Nat) : Bool := c == 46 || c == 47

/-- The canonical key of a path: slashes collapsed, trailing dots and slashes
removed. -/
def mangleKey (p : List Nat) : List Nat := (collapseSlashes p).rdropWhile isDotSlash

/-- The path p with its j-th slash replaced by a run of 1 + ks[j] slashes (a
missing entry of ks counts as 0). -/
def expandSlashes : List Nat → List Nat → List Nat
  | [], _ => []
  | c :: p, ks =>
    if c = 47 then List.replicate (ks.headD 0 + 1) 47 ++ expandSlashes p ks.tail
    else c :: expandSlashes p ks

/-- The bytes of a record of length L that starts at offset o of the block blkB
and ends in the block blkN that follows: blkB from o to its end, then the first
o + L - BLOCK_SIZE bytes of blkN. -/
def straddleRecord (blkB blkN : List Nat) (o L : Nat) : List Nat :=
  blkB.drop o ++ blkN.take (o + L - BLOCK_SIZE)

/-! ## Lemmas on memory reads -/

theorem srcWindow_succ (src : List Nat) (i n : Nat) :
    srcWindow src i (n + 1) = byteAt src i :: srcWindow src (i + 1) n := by
  simp [srcWindow, List.range'_succ]

theorem byteAt_append_left (a b : List Nat) (j : Nat) (h : j < a.length) :
    byteAt (a ++ b) j = byteAt a j := by
  simp [byteAt, List.getD_eq_getElem?_getD, List.getElem?_append_left h]

theorem byteAt_append_right (a b : List Nat) (j : Nat) :
    byteAt (a ++ b) (a.length + j) = byteAt b j := by
  simp [byteAt, List.getD_eq_getElem?_getD, List.getElem?_append_right]

theorem srcWindow_append_aux (a b : List Nat) :
    ∀ pre : List Nat, srcWindow (pre ++ a ++ b) pre.length a.length = a := by
  induction a with
  | nil => intro pre; simp [srcWindow]
  | cons c a ih =>
    intro pre
    have h := ih (pre ++ [c])
    simp only [List.length_cons, srcWindow_succ]
    have e : pre ++ c :: a ++ b = pre ++ [c] ++ a ++ b := by simp
    rw [e]
    simp only [List.length_append, List.length_singleton] at h
    rw [h]
    congr 1
    have := byteAt_append_right pre ([c] ++ a ++ b) 0
    simpa [byteAt] using this

theorem srcWindow_append (a b : List Nat) : srcWindow (a ++ b) 0 a.length = a := by
  simpa using srcWindow_append_aux a b []

theorem byteAt_drop (l : List Nat) (n k : Nat) : byteAt (l.drop n) k = byteAt l (n + k) := by
  simp [byteAt, List.getD_eq_getElem?_getD, List.getElem?_drop]

/-! ## Lemmas on iso_convert_name -/

theorem srcWindow_length (src : List Nat) (i n : Nat) : (srcWindow src i n).length = n := by
  simp [srcWindow]

theorem convert_copy_eq (src : List Nat) (len : Nat) :
    ∀ fuel i out, len - i ≤ fuel →
      convert_copy src len fuel i out
        = (out ++ copySpec (srcWindow src i (len - i)),
           i + (copySpec (srcWindow src i (len - i))).length) := by
  intro fuel
  induction fuel with
  | zero =>
    intro i out h
    have h0 : len - i = 0 := by omega
    simp [convert_copy, h0, srcWindow, copySpec]
  | succ n ih =>
    intro i out h
    unfold convert_copy
    by_cases hi : i < len
    · obtain ⟨m, hm⟩ : ∃ m, len - i = m + 1 := ⟨len - i - 1, by omega⟩
      have hm2 : len - (i + 1) = m := by omega
      rw [hm, srcWindow_succ]
      simp only [hi, if_true]
      by_cases hc : byteAt src i = 0
      · simp [hc, copySpec]
      · by_cases hs : byteAt src i = 59 ∧ i + 2 = len ∧ byteAt src (i + 1) = 49
        · have hm1 : m = 1 := by omega
          subst hm1
          have hw : srcWindow src (i + 1) 1 = [49] := by
            simp [srcWindow, hs.2.2]
          simp [hc, hs, copySpec, hw]
        · have hw : ¬ (byteAt src i = 59 ∧ srcWindow src (i + 1) m = [49]) := by
            rintro ⟨h1, h2⟩
            have hl := srcWindow_length src (i + 1) m
            rw [h2] at hl
            simp at hl
            subst hl
            apply hs
            refine ⟨h1, by omega, ?_⟩
            simpa [srcWindow] using h2
          rw [ih (i + 1) _ (by omega), hm2]
          simp [hc, hs, hw, copySpec, Nat.add_assoc, Nat.add_comm 1]
    · have h0 : len - i = 0 := by omega
      simp [hi, h0, srcWindow, copySpec]

theorem copySpec_mem (l : List Nat) : ∀ c ∈ copySpec l, c ≠ 0 ∧ c ≠ 59 := by
  induction l with
  | nil => simp [copySpec]
  | cons a l ih =>
    intro c hc
    unfold copySpec at hc
    by_cases h0 : a = 0
    · simp [h0] at hc
    · by_cases hs : a = 59 ∧ l = [49]
      · simp [h0, hs] at hc
      · simp only [h0, hs, if_false, List.mem_cons] at hc
        rcases hc with hc | hc
        · subst hc
          by_cases h59 : a = 59
          · simp [h59]
          · simp [h59, h0]
        · exact ih c hc

theorem copySpec_plain (l : List Nat) (h : ∀ c ∈ l, c ≠ 0 ∧ c ≠ 59) : copySpec l = l := by
  induction l with
  | nil => simp [copySpec]
  | cons a l ih =>
    have ha := h a (by simp)
    have hl : ∀ c ∈ l, c ≠ 0 ∧ c ≠ 59 := fun c hc => h c (by simp [hc])
    simp [copySpec, ha.1, ha.2, ih hl]

theorem copySpec_semi (stem : List Nat) (h : ∀ c ∈ stem, c ≠ 0) :
    copySpec (stem ++ [59, 49]) = stem.map (fun c => if c = 59 then 46 else c) := by
  induction stem with
  | nil => simp [copySpec]
  | cons a l ih =>
    have ha := h a (by simp)
    have hl : ∀ c ∈ l, c ≠ 0 := fun c hc => h c (by simp [hc])
    have hne : l ++ [59, 49] ≠ [49] := by
      intro e
      have := congrArg List.length e
      simp at this
    simp [copySpec, ha, hne, ih hl]

theorem cstr_append_nul (a b : List Nat) (h : ∀ c ∈ a, c ≠ 0) : cstr (a ++ 0 :: b) = a := by
  induction a with
  | nil => simp [cstr]
  | cons c a ih =>
    have hc := h c (by simp)
    have ha : ∀ x ∈ a, x ≠ 0 := fun x hx => h x (by simp [hx])
    have := ih ha
    simp only [cstr] at this
    simp [cstr, hc, this]

theorem convert_strip_spec :
    ∀ fuel out, fuel = out.length →
      (convert_strip fuel out fuel).2 = (convert_strip fuel out fuel).1.length
      ∧ (convert_strip fuel out fuel).1 = out.take (convert_strip fuel out fuel).2
      ∧ min out.length 2 ≤ (convert_strip fuel out fuel).2
      ∧ (convert_strip fuel out fuel).2 ≤ out.length
      ∧ (2 < (convert_strip fuel out fuel).2 →
          (convert_strip fuel out fuel).1.getLast? ≠ some 46)
      ∧ ∃ k, out = (convert_strip fuel out fuel).1 ++ List.replicate k 46 := by
  intro fuel
  induction fuel with
  | zero =>
    intro out h
    have : out = [] := List.length_eq_zero.mp h.symm
    subst this
    simp [convert_strip]
  | succ n ih =>
    intro out h
    unfold convert_strip
    by_cases hl : out.getLast? = some 46
    · by_cases h2 : n + 1 ≤ 2
      · simp only [hl, h2, if_true]
        refine ⟨h, by simp [← h], by omega, by omega, by omega, 0, by simp⟩
      · simp only [hl, h2, if_true, if_false, Nat.add_sub_cancel]
        have hd : out.dropLast ++ [46] = out := List.dropLast_append_getLast? 46 (by simp [hl])
        obtain ⟨pre, rfl⟩ : ∃ pre, out = pre ++ [46] := ⟨out.dropLast, hd.symm⟩
        simp only [List.dropLast_concat]
        have hdl : n = pre.length := by simpa using h
        obtain ⟨i1, i2, i3, i4, i5, k, i6⟩ := ih pre hdl
        simp only [List.length_append, List.length_singleton]
        refine ⟨i1, ?_, by omega, by omega, i5, k + 1, ?_⟩
        · rw [List.take_append_of_le_length i4]
          exact i2
        · conv_lhs => rw [i6]
          simp [List.replicate_succ']
    · simp only [hl, if_false]
      refine ⟨h, by simp [← h], by omega, by omega, fun _ => hl, 0, by simp⟩

theorem iso_convert_name_eq (raw rest : List Nat) :
    iso_convert_name (raw ++ rest) raw.length
      = ((convert_strip (copySpec raw).length (copySpec raw) (copySpec raw).length).1 ++ [0],
         (convert_strip (copySpec raw).length (copySpec raw) (copySpec raw).length).2) := by
  unfold iso_convert_name
  rw [convert_copy_eq (raw ++ rest) raw.length raw.length 0 [] (by omega)]
  simp [srcWindow_append]

theorem iso_convert_name_shape (src : List Nat) (len : Nat) :
    ∃ out, iso_convert_name src len = (out ++ [0], out.length)
      ∧ (∀ c ∈ out, c ≠ 0 ∧ c ≠ 59)
      ∧ cstr (iso_convert_name src len).1 = out := by
  have hc := convert_copy_eq src len len 0 [] (by omega)
  simp only [List.nil_append, Nat.sub_zero, Nat.zero_add] at hc
  obtain ⟨i1, i2, -, -, -, -⟩ :=
    convert_strip_spec _ (copySpec (srcWindow src 0 len)) rfl
  refine ⟨(convert_strip (copySpec (srcWindow src 0 len)).length
            (copySpec (srcWindow src 0 len)) (copySpec (srcWindow src 0 len)).length).1, ?_, ?_, ?_⟩
  · unfold iso_convert_name
    rw [hc]
    simp only [← i1]
  · intro c hcm
    rw [i2] at hcm
    exact copySpec_mem _ c (List.mem_of_mem_take hcm)
  · unfold iso_convert_name
    rw [hc]
    apply cstr_append_nul
    intro c hcm
    rw [i2] at hcm
    exact (copySpec_mem _ c (List.mem_of_mem_take hcm)).1

/-! ## Lemmas on iso_compare_name -/

theorem compare_loop_cons (c d : Nat) (p q : List Nat) :
    ∀ i k, compare_loop (c :: p) (d :: q) i (k + 1) = compare_loop p q i k := by
  intro i
  induction i with
  | zero => intro k; simp [compare_loop]
  | succ n ih =>
    intro k
    simp only [compare_loop, ih]
    simp [byteAt]

theorem compare_loop_lists :
    ∀ (a b pa pb : List Nat), a.length = b.length →
      (compare_loop (a ++ pa) (b ++ pb) a.length 0
        = if a.map (fun c => c ||| 0x20) = b.map (fun c => c ||| 0x20) then 1 else 0) := by
  intro a
  induction a with
  | nil =>
    intro b pa pb h
    have : b = [] := List.length_eq_zero.mp h.symm
    subst this
    simp [compare_loop]
  | cons c a ih =>
    intro b pa pb h
    cases b with
    | nil => simp at h
    | cons d b =>
      have hl : a.length = b.length := by simpa using h
      simp only [List.cons_append, List.length_cons, compare_loop, compare_loop_cons, ih b pa pb hl]
      by_cases hcd : c ||| 0x20 = d ||| 0x20
      · simp [byteAt, hcd]
      · simp [byteAt, hcd]

theorem iso_compare_name_eq (src : List Nat) (len : Nat) (q : List Nat) :
    iso_compare_name src len q
      = if (cstr (iso_convert_name src len).1).map (fun c => c ||| 0x20)
            = (cstr q).map (fun c => c ||| 0x20) then 1 else 0 := by
  obtain ⟨out, h1, -, h3⟩ := iso_convert_name_shape src len
  rw [h3]
  unfold iso_compare_name
  rw [h1]
  simp only [strlen]
  by_cases hl : out.length = (cstr q).length
  · have hq : q = cstr q ++ q.dropWhile (fun c => c != 0) := by
      simp [cstr, List.takeWhile_append_dropWhile]
    have key := compare_loop_lists out (cstr q) [0] (q.dropWhile (fun c => c != 0)) hl
    rw [← hq] at key
    rw [if_neg (not_not.mpr hl)]
    exact key
  · have hne : ¬ (out.map (fun c => c ||| 0x20) = (cstr q).map (fun c => c ||| 0x20)) := by
      intro e
      apply hl
      simpa using congrArg List.length e
    simp [hl, hne]

theorem lor_fold (c d : Nat)
    (h : (if 65 ≤ c ∧ c ≤ 90 then c + 0x20 else c) = (if 65 ≤ d ∧ d ≤ 90 then d + 0x20 else d)) :
    c ||| 0x20 = d ||| 0x20 := by
  have up : ∀ x, 65 ≤ x → x ≤ 90 → x ||| 0x20 = x + 0x20 ∧ (x + 0x20) ||| 0x20 = x + 0x20 := by
    intro x h1 h2
    interval_cases x <;> decide
  by_cases hc : 65 ≤ c ∧ c ≤ 90
  · by_cases hd : 65 ≤ d ∧ d ≤ 90
    · simp only [hc, hd, and_self, if_true] at h
      have : c = d := by omega
      rw [this]
    · simp only [hc, hd, and_self, if_true, if_false] at h
      rw [← h, (up c hc.1 hc.2).1, (up c hc.1 hc.2).2]
  · by_cases hd : 65 ≤ d ∧ d ≤ 90
    · simp only [hc, hd, and_self, if_true, if_false] at h
      rw [h, (up d hd.1 hd.2).1, (up d hd.1 hd.2).2]
    · simp only [hc, hd, if_false] at h
      rw [h]

theorem cstr_tolower_str (s : List Nat) :
    cstr (tolower_str s) = (cstr s).map (fun c => if 65 ≤ c ∧ c ≤ 90 then c + 0x20 else c) := by
  induction s with
  | nil => simp [tolower_str, cstr]
  | cons c s ih =>
    unfold tolower_str
    by_cases h0 : c = 0
    · simp [h0, cstr]
    · simp only [cstr] at ih
      by_cases hu : 65 ≤ c ∧ c ≤ 90
      · simp [h0, hu, cstr, ih]
      · simp [h0, hu, cstr, ih]

theorem fold_eq_lor_eq :
    ∀ (a b : List Nat),
      a.map (fun c => if 65 ≤ c ∧ c ≤ 90 then c + 0x20 else c)
        = b.map (fun c => if 65 ≤ c ∧ c ≤ 90 then c + 0x20 else c) →
      a.map (fun c => c ||| 0x20) = b.map (fun c => c ||| 0x20) := by
  intro a
  induction a with
  | nil =>
    intro b h
    cases b with
    | nil => rfl
    | cons d b => simp at h
  | cons c a ih =>
    intro b h
    cases b with
    | nil => simp at h
    | cons d b =>
      simp only [List.map_cons, List.cons.injEq] at h ⊢
      exact ⟨lor_fold c d h.1, ih b h.2⟩

theorem iso_convert_name_facts (src : List Nat) (len : Nat) :
    (convert_copy src len len 0 []).1 = copySpec (srcWindow src 0 len)
    ∧ (iso_convert_name src len).1 = cstr (iso_convert_name src len).1 ++ [0]
    ∧ (iso_convert_name src len).2 = (cstr (iso_convert_name src len).1).length
    ∧ cstr (iso_convert_name src len).1
        = (convert_copy src len len 0 []).1.take (iso_convert_name src len).2
    ∧ min (convert_copy src len len 0 []).1.length 2 ≤ (iso_convert_name src len).2
    ∧ (iso_convert_name src len).2 ≤ (convert_copy src len len 0 []).1.length
    ∧ (2 < (iso_convert_name src len).2 →
        (cstr (iso_convert_name src len).1).getLast? ≠ some 46)
    ∧ (∃ k, (convert_copy src len len 0 []).1
          = cstr (iso_convert_name src len).1 ++ List.replicate k 46)
    ∧ ∀ c ∈ cstr (iso_convert_name src len).1, c ≠ 0 ∧ c ≠ 59 := by
  have hc := convert_copy_eq src len len 0 [] (by omega)
  simp only [List.nil_append, Nat.sub_zero, Nat.zero_add] at hc
  obtain ⟨i1, i2, i3, i4, i5, k, i6⟩ :=
    convert_strip_spec _ (copySpec (srcWindow src 0 len)) rfl
  have hmem : ∀ c ∈ (convert_strip (copySpec (srcWindow src 0 len)).length
      (copySpec (srcWindow src 0 len)) (copySpec (srcWindow src 0 len)).length).1,
      c ≠ 0 ∧ c ≠ 59 := by
    intro c hcm
    rw [i2] at hcm
    exact copySpec_mem _ c (List.mem_of_mem_take hcm)
  have hr : iso_convert_name src len
      = ((convert_strip (copySpec (srcWindow src 0 len)).length
            (copySpec (srcWindow src 0 len)) (copySpec (srcWindow src 0 len)).length).1 ++ [0],
         (convert_strip (copySpec (srcWindow src 0 len)).length
            (copySpec (srcWindow src 0 len)) (copySpec (srcWindow src 0 len)).length).2) := by
    unfold iso_convert_name
    rw [hc]
  have hs : cstr (iso_convert_name src len).1
      = (convert_strip (copySpec (srcWindow src 0 len)).length
            (copySpec (srcWindow src 0 len)) (copySpec (srcWindow src 0 len)).length).1 := by
    rw [hr]
    exact cstr_append_nul _ [] (fun c h => (hmem c h).1)
  rw [hs, hc, hr]
  exact ⟨rfl, rfl, i1, i2, i3, i4, i5, ⟨k, i6⟩, hmem⟩

theorem convert_strip_dots (N : List Nat) (h2 : 2 ≤ N.length) :
    ∀ k, convert_strip (N.length + k) (N ++ List.replicate k 46) (N.length + k)
          = convert_strip N.length N N.length := by
  intro k
  induction k with
  | zero => simp
  | succ k ih =>
    have hl : (N ++ List.replicate (k + 1) 46).getLast? = some 46 := by
      simp [List.replicate_succ', ← List.append_assoc]
    have hd : (N ++ List.replicate (k + 1) 46).dropLast = N ++ List.replicate k 46 := by
      rw [List.replicate_succ', ← List.append_assoc, List.dropLast_concat]
    have hi : ¬ (N.length + (k + 1) ≤ 2) := by omega
    rw [← Nat.add_assoc, convert_strip]
    simp only [Nat.add_assoc, hl, hi, if_true, if_false, hd]
    simpa [Nat.add_assoc] using ih

/-! ## The name codec: conversion -/

/-- C7: a raw name of len >= 3 bytes without NUL that ends in ";1" loses these
two bytes; the for loop writes the first len-2 bytes with every ';' turned into
'.', and the result is that string with only trailing dots removed (none once a
dot has been removed down to two bytes, none left when more than two bytes
remain); the output has no ';', is NUL-terminated, and the returned count is
its length. -/
theorem convert_drops_version (raw rest : List Nat) (len : Nat)
    (hlen : 3 ≤ len) (hraw : raw.length = len) (hnul : ∀ c ∈ raw, c ≠ 0)
    (hsuf : raw.drop (len - 2) = [59, 49]) :
    (convert_copy (raw ++ rest) len len 0 []).1
        = (raw.take (len - 2)).map (fun c => if c = 59 then 46 else c)
    ∧ (∃ k, (raw.take (len - 2)).map (fun c => if c = 59 then 46 else c)
          = cstr (iso_convert_name (raw ++ rest) len).1 ++ List.replicate k 46
        ∧ (0 < k → 2 ≤ (iso_convert_name (raw ++ rest) len).2))
    ∧ (2 < (iso_convert_name (raw ++ rest) len).2 →
        (cstr (iso_convert_name (raw ++ rest) len).1).getLast? ≠ some 46)
    ∧ 59 ∉ cstr (iso_convert_name (raw ++ rest) len).1
    ∧ (iso_convert_name (raw ++ rest) len).1
        = cstr (iso_convert_name (raw ++ rest) len).1 ++ [0]
    ∧ (iso_convert_name (raw ++ rest) len).2
        = (cstr (iso_convert_name (raw ++ rest) len).1).length := by
  obtain ⟨f1, f2, f3, f4, f5, f6, f7, ⟨k, f8⟩, f9⟩ := iso_convert_name_facts (raw ++ rest) len
  have hsplit : raw = raw.take (len - 2) ++ [59, 49] := by
    rw [← hsuf, List.take_append_drop]
  have hstem : ∀ c ∈ raw.take (len - 2), c ≠ 0 := fun c hc => hnul c (List.mem_of_mem_take hc)
  have hw : srcWindow (raw ++ rest) 0 len = raw := by
    rw [← hraw]
    exact srcWindow_append raw rest
  have hcopy : (convert_copy (raw ++ rest) len len 0 []).1
      = (raw.take (len - 2)).map (fun c => if c = 59 then 46 else c) := by
    rw [f1, hw]
    conv_lhs => rw [hsplit]
    exact copySpec_semi _ hstem
  refine ⟨hcopy, ⟨k, ?_, ?_⟩, f7, fun h => (f9 59 h).2 rfl, f2, f3⟩
  · rw [← hcopy]
    exact f8
  · intro hk
    have hl := congrArg List.length f8
    simp only [List.length_append, List.length_replicate] at hl
    omega

/-- C7, at the raw name "A;B.;1" of six bytes: the copy is "A.B.", its final dot
is removed, and 3 is returned. -/
theorem convert_drops_version_witness :
    (3 ≤ 6 ∧ [65, 59, 66, 46, 59, 49].length = 6 ∧ (∀ c ∈ [65, 59, 66, 46, 59, 49], c ≠ 0)
      ∧ [65, 59, 66, 46, 59, 49].drop (6 - 2) = [59, 49])
    ∧ iso_convert_name ([65, 59, 66, 46, 59, 49] ++ [7, 7]) 6 = ([65, 46, 66, 0], 3)
    ∧ 59 ∉ cstr (iso_convert_name ([65, 59, 66, 46, 59, 49] ++ [7, 7]) 6).1 :=
  ⟨⟨by decide, by decide, by decide, by decide⟩, by decide,
    (convert_drops_version [65, 59, 66, 46, 59, 49] [7, 7] 6 (by decide) (by decide)
      (by decide) (by decide)).2.2.2.1⟩

/-- C8: the removal of terminal dots never takes a name below two bytes. With c
the number of bytes the for loop copied, the returned count r has
min(c, 2) <= r <= c, the output string is the first r copied bytes, and it does
not end in a dot when r > 2; "." and ".." convert to themselves. -/
theorem convert_strip_floor (src : List Nat) (len : Nat)
    (hlen : 1 ≤ len) (h0 : byteAt src 0 ≠ 0) :
    min (convert_copy src len len 0 []).1.length 2 ≤ (iso_convert_name src len).2
    ∧ (iso_convert_name src len).2 ≤ (convert_copy src len len 0 []).1.length
    ∧ cstr (iso_convert_name src len).1
        = (convert_copy src len len 0 []).1.take (iso_convert_name src len).2
    ∧ (iso_convert_name src len).1 = cstr (iso_convert_name src len).1 ++ [0]
    ∧ (2 < (iso_convert_name src len).2 →
        (cstr (iso_convert_name src len).1).getLast? ≠ some 46)
    ∧ iso_convert_name [46] 1 = ([46, 0], 1)
    ∧ iso_convert_name [46, 46] 2 = ([46, 46, 0], 2) := by
  obtain ⟨-, f2, -, f4, f5, f6, f7, -, -⟩ := iso_convert_name_facts src len
  exact ⟨f5, f6, f4, f2, f7, by decide, by decide⟩

/-- C8, at the raw name "A..." of four bytes: four bytes are copied, and the
strip stops at "A." with count 2. -/
theorem convert_strip_floor_witness :
    (1 ≤ 4 ∧ byteAt [65, 46, 46, 46] 0 ≠ 0)
    ∧ (convert_copy [65, 46, 46, 46] 4 4 0 []).1 = [65, 46, 46, 46]
    ∧ iso_convert_name [65, 46, 46, 46] 4 = ([65, 46, 0], 2)
    ∧ min (convert_copy [65, 46, 46, 46] 4 4 0 []).1.length 2
        ≤ (iso_convert_name [65, 46, 46, 46] 4).2 :=
  ⟨⟨by decide, by decide⟩, by decide, by decide,
    (convert_strip_floor [65, 46, 46, 46] 4 (by decide) (by decide)).1⟩

/-! ## The name codec: comparison -/

/-- C5 as stated fails: the raw name "@" and the query of the single byte 0x60
compare equal (both become 0x60 under `|= 0x20`), although they are different
strings that contain no letter at all, so folding A..Z to a..z leaves them
different. The fold by `|= 0x20` on both bytes is the comparison the code is
written to make. -/
theorem compare_name_casefold_counterexample :
    ¬ (iso_compare_name [64] 1 [96] = 1 ↔
        cstr (tolower_str (iso_convert_name [64] 1).1) = cstr (tolower_str [96])) := by
  decide

/-- C5 (amended): iso_compare_name returns 1 exactly when the converted name and
the query are equal byte for byte after each byte is OR-ed with 0x20 (hence of
the same length), and 0 otherwise; equality up to the case of ASCII letters
implies a return of 1. -/
theorem compare_name_bitfold (de_name : List Nat) (len : Nat) (file_name : List Nat)
    (hlen : 1 ≤ len) (h0 : byteAt de_name 0 ≠ 0) :
    (iso_compare_name de_name len file_name = 1 ↔
        (cstr (iso_convert_name de_name len).1).map (fun c => c ||| 0x20)
          = (cstr file_name).map (fun c => c ||| 0x20))
    ∧ (iso_compare_name de_name len file_name ≠ 1 →
        iso_compare_name de_name len file_name = 0)
    ∧ (cstr (tolower_str (iso_convert_name de_name len).1) = cstr (tolower_str file_name) →
        iso_compare_name de_name len file_name = 1) := by
  have e := iso_compare_name_eq de_name len file_name
  refine ⟨?_, ?_, ?_⟩
  · rw [e]
    constructor
    · intro h
      by_contra hne
      simp [hne] at h
    · intro h
      simp [h]
  · intro h
    rw [e] at h ⊢
    by_cases hc : (cstr (iso_convert_name de_name len).1).map (fun c => c ||| 0x20)
          = (cstr file_name).map (fun c => c ||| 0x20)
    · simp [hc] at h
    · simp [hc]
  · intro h
    rw [cstr_tolower_str, cstr_tolower_str] at h
    rw [e, if_pos (fold_eq_lor_eq _ _ h)]

/-- C5 (amended), at the raw name "FOO.TXT;1" and the query "foo.txt": the
call returns 1. -/
theorem compare_name_bitfold_witness :
    (1 ≤ 9 ∧ byteAt [70, 79, 79, 46, 84, 88, 84, 59, 49] 0 ≠ 0)
    ∧ iso_compare_name [70, 79, 79, 46, 84, 88, 84, 59, 49] 9
        [102, 111, 111, 46, 116, 120, 116] = 1 :=
  ⟨⟨by decide, by decide⟩,
    (compare_name_bitfold [70, 79, 79, 46, 84, 88, 84, 59, 49] 9
      [102, 111, 111, 46, 116, 120, 116] (by decide) (by decide)).2.2 (by decide)⟩

/-- C6 as stated fails for a name of one byte: "A" matches the query "a", but "A"
followed by one dot converts to "A." and does not match it, since the strip of
terminal dots stops at two bytes through its guard `if (i <= 2) break`. -/
theorem compare_trailing_dot_counterexample :
    iso_compare_name [65] 1 [97] = 1 ∧ iso_compare_name [65, 46] 2 [97] = 0 := by
  decide

/-- C6 (amended): for a raw name N without NUL or ';' bytes, the comparison
gives the same answer for N and for N followed by ";1" when N is not empty, and,
when N has at least two bytes, also for N followed by k dots, with or without a
further ";1". -/
theorem compare_ignores_suffix (N Q : List Nat) (k : Nat)
    (hne : N ≠ []) (hN : ∀ c ∈ N, c ≠ 0 ∧ c ≠ 59) :
    iso_compare_name (N ++ [59, 49]) (N.length + 2) Q = iso_compare_name N N.length Q
    ∧ (2 ≤ N.length →
        iso_compare_name (N ++ List.replicate k 46) (N.length + k) Q
          = iso_compare_name N N.length Q
        ∧ iso_compare_name (N ++ List.replicate k 46 ++ [59, 49]) (N.length + k + 2) Q
          = iso_compare_name N N.length Q) := by
  have hmap : ∀ l : List Nat, (∀ c ∈ l, c ≠ 0 ∧ c ≠ 59) →
      l.map (fun c => if c = 59 then 46 else c) = l := by
    intro l hl
    induction l with
    | nil => rfl
    | cons a l ih =>
      have ha := hl a (by simp)
      simp [ha.2, ih (fun c hc => hl c (by simp [hc]))]
  have hNd : ∀ c ∈ N ++ List.replicate k 46, c ≠ 0 ∧ c ≠ 59 := by
    intro c hc
    rcases List.mem_append.mp hc with h | h
    · exact hN c h
    · have := List.eq_of_mem_replicate h
      subst this
      decide
  have base : iso_convert_name N N.length
      = ((convert_strip N.length N N.length).1 ++ [0], (convert_strip N.length N N.length).2) := by
    have := iso_convert_name_eq N []
    simp only [List.append_nil] at this
    rw [this, copySpec_plain N hN]
  have e1 : iso_convert_name (N ++ [59, 49]) (N.length + 2) = iso_convert_name N N.length := by
    have := iso_convert_name_eq (N ++ [59, 49]) []
    simp only [List.append_nil, List.length_append, List.length_cons, List.length_nil] at this
    rw [this, copySpec_semi N (fun c hc => (hN c hc).1), hmap N hN, base]
  refine ⟨by unfold iso_compare_name; rw [e1], ?_⟩
  intro h2
  have e2 : iso_convert_name (N ++ List.replicate k 46) (N.length + k)
      = iso_convert_name N N.length := by
    have := iso_convert_name_eq (N ++ List.replicate k 46) []
    simp only [List.append_nil, List.length_append, List.length_replicate] at this
    rw [this, copySpec_plain _ hNd, base]
    simp only [List.length_append, List.length_replicate, convert_strip_dots N h2 k]
  have e3 : iso_convert_name (N ++ List.replicate k 46 ++ [59, 49]) (N.length + k + 2)
      = iso_convert_name N N.length := by
    have := iso_convert_name_eq (N ++ List.replicate k 46 ++ [59, 49]) []
    simp only [List.append_nil, List.length_append, List.length_replicate, List.length_cons,
      List.length_nil] at this
    rw [this, copySpec_semi _ (fun c hc => (hNd c hc).1), hmap _ hNd, base]
    simp only [List.length_append, List.length_replicate, convert_strip_dots N h2 k]
  exact ⟨by unfold iso_compare_name; rw [e2], by unfold iso_compare_name; rw [e3]⟩

/-- C6 (amended), at N = "AB" with three dots and the query "ab": all four
spellings of the name match. -/
theorem compare_ignores_suffix_witness :
    ([65, 66] ≠ [] ∧ (∀ c ∈ [65, 66], c ≠ 0 ∧ c ≠ 59) ∧ 2 ≤ [65, 66].length)
    ∧ iso_compare_name [65, 66] 2 [97, 98] = 1
    ∧ iso_compare_name ([65, 66] ++ [59, 49]) ([65, 66].length + 2) [97, 98]
        = iso_compare_name [65, 66] [65, 66].length [97, 98]
    ∧ iso_compare_name ([65, 66] ++ List.replicate 3 46) ([65, 66].length + 3) [97, 98]
        = iso_compare_name [65, 66] [65, 66].length [97, 98] :=
  ⟨⟨by decide, by decide, by decide⟩, by decide,
    (compare_ignores_suffix [65, 66] [97, 98] 3 (by decide) (by decide)).1,
    ((compare_ignores_suffix [65, 66] [97, 98] 3 (by decide) (by decide)).2 (by decide)).1⟩

/-! ## Lemmas on iso_mangle_name -/

theorem set_take_drop (c : Nat) :
    ∀ (buf : List Nat) (d : Nat), d < buf.length →
      buf.set d c = buf.take d ++ c :: buf.drop (d + 1) := by
  intro buf
  induction buf with
  | nil => intro d h; simp at h
  | cons a buf ih =>
    intro d h
    cases d with
    | zero => simp
    | succ d =>
      have := ih d (by simpa using h)
      simp [this]

theorem byteAt_head_term (p term : List Nat) (hp : ∀ c ∈ p, 32 < c)
    (ht : not_whitespace (byteAt term 0) = false) :
    (byteAt (p ++ term) 0 = 47 ↔ byteAt p 0 = 47) := by
  cases p with
  | nil =>
    simp only [List.nil_append]
    have h1 : byteAt term 0 ≠ 47 := by
      intro e
      rw [e] at ht
      simp [not_whitespace] at ht
    have h2 : byteAt ([] : List Nat) 0 ≠ 47 := by simp [byteAt]
    exact ⟨fun h => absurd h h1, fun h => absurd h h2⟩
  | cons a p => simp [byteAt]

theorem mangle_copy_eq :
    ∀ (p term buf : List Nat) (d : Nat) (i : Int),
      (∀ c ∈ p, 32 < c) → not_whitespace (byteAt term 0) = false →
      d + (collapseSlashes p).length ≤ buf.length →
      mangle_copy (p ++ term) buf d i
        = (buf.take d ++ collapseSlashes p ++ buf.drop (d + (collapseSlashes p).length),
           d + (collapseSlashes p).length, i - p.length) := by
  intro p
  induction p with
  | nil =>
    intro term buf d i _ ht _
    cases term with
    | nil => simp [mangle_copy, collapseSlashes]
    | cons c t =>
      have hc : not_whitespace c = false := by simpa [byteAt] using ht
      simp [mangle_copy, collapseSlashes, hc]
  | cons c p ih =>
    intro term buf d i hp ht hlen
    have hc : not_whitespace c = true := by
      simp [not_whitespace, hp c (by simp)]
    have hp2 : ∀ x ∈ p, 32 < x := fun x hx => hp x (by simp [hx])
    have hb := byteAt_head_term p term hp2 ht
    rw [List.cons_append, mangle_copy]
    simp only [hc, if_true]
    by_cases hs : c = 47 ∧ byteAt p 0 = 47
    · have hs2 : c = 47 ∧ byteAt (p ++ term) 0 = 47 := ⟨hs.1, hb.mpr hs.2⟩
      have hcol : collapseSlashes (c :: p) = collapseSlashes p := by
        simp [collapseSlashes, hs]
      rw [hcol] at hlen ⊢
      rw [if_pos hs2, ih term buf d (i - 1) hp2 ht hlen]
      simp only [List.length_cons, Prod.mk.injEq, true_and]
      push_cast
      omega
    · have hs2 : ¬ (c = 47 ∧ byteAt (p ++ term) 0 = 47) := fun h => hs ⟨h.1, hb.mp h.2⟩
      have hcol : collapseSlashes (c :: p) = c :: collapseSlashes p := by
        simp [collapseSlashes, hs]
      rw [hcol] at hlen ⊢
      simp only [List.length_cons] at hlen
      have hd : d < buf.length := by omega
      rw [if_neg hs2, ih term (buf.set d c) (d + 1) (i - 1) hp2 ht (by simp; omega)]
      have e1 : (buf.set d c).take (d + 1) = buf.take d ++ [c] := by
        rw [set_take_drop c buf d hd]
        have : buf.take d ++ c :: buf.drop (d + 1) = (buf.take d ++ [c]) ++ buf.drop (d + 1) := by
          simp
        rw [this]
        apply List.take_left'
        simp [List.length_take, Nat.min_eq_left (Nat.le_of_lt hd)]
      have e2 : (buf.set d c).drop (d + 1 + (collapseSlashes p).length)
          = buf.drop (d + ((collapseSlashes p).length + 1)) := by
        rw [List.drop_set]
        simp only [show d < d + 1 + (collapseSlashes p).length by omega, if_true]
        congr 1
        omega
      rw [e1, e2]
      simp only [List.length_cons, Prod.mk.injEq, List.append_assoc, List.singleton_append,
        true_and]
      refine ⟨by omega, ?_⟩
      push_cast
      omega

theorem mangle_strip_eq (buf : List Nat) :
    ∀ (d : Nat) (i : Int), d ≤ buf.length →
      mangle_strip buf d i
        = (((buf.take d).rdropWhile isDotSlash).length,
           i + ((d : Int) - (((buf.take d).rdropWhile isDotSlash).length : Nat))) := by
  intro d
  induction d with
  | zero => intro i _; simp [mangle_strip, List.rdropWhile]
  | succ d ih =>
    intro i h
    have hd : d < buf.length := by omega
    have ht : buf.take (d + 1) = buf.take d ++ [byteAt buf d] := by
      rw [List.take_succ]
      simp [byteAt, List.getD_eq_getElem?_getD, List.getElem?_eq_getElem hd]
    rw [ht, List.rdropWhile_concat]
    unfold mangle_strip
    by_cases hc : byteAt buf d ≠ 46 ∧ byteAt buf d ≠ 47
    · have hn : isDotSlash (byteAt buf d) = false := by
        simp [isDotSlash, hc.1, hc.2]
      simp [hc, hn, List.length_take, Nat.min_eq_left (Nat.le_of_lt hd)]
    · have hn : isDotSlash (byteAt buf d) = true := by
        simp only [isDotSlash, Bool.or_eq_true, beq_iff_eq]
        by_contra hh
        exact hc ⟨fun e => hh (Or.inl e), fun e => hh (Or.inr e)⟩
      rw [if_neg hc, ih (i + 1) (by omega)]
      simp only [hn, if_true, Prod.mk.injEq, true_and]
      push_cast
      omega

theorem mangle_pad_eq :
    ∀ (n : Nat) (buf : List Nat) (d : Nat), d + n ≤ buf.length →
      mangle_pad n buf d = buf.take d ++ List.replicate n 0 ++ buf.drop (d + n) := by
  intro n
  induction n with
  | zero => intro buf d _; simp [mangle_pad]
  | succ n ih =>
    intro buf d h
    have hd : d < buf.length := by omega
    rw [mangle_pad, ih (buf.set d 0) (d + 1) (by simp; omega)]
    have e1 : (buf.set d 0).take (d + 1) = buf.take d ++ [0] := by
      rw [set_take_drop 0 buf d hd]
      have : buf.take d ++ 0 :: buf.drop (d + 1) = (buf.take d ++ [0]) ++ buf.drop (d + 1) := by
        simp
      rw [this]
      apply List.take_left'
      simp [List.length_take, Nat.min_eq_left (Nat.le_of_lt hd)]
    have e2 : (buf.set d 0).drop (d + 1 + n) = buf.drop (d + (n + 1)) := by
      rw [List.drop_set]
      simp only [show d < d + 1 + n by omega, if_true]
      congr 1
      omega
    rw [e1, e2]
    simp [List.replicate_succ]

theorem collapseSlashes_length_le (p : List Nat) : (collapseSlashes p).length ≤ p.length := by
  induction p with
  | nil => simp [collapseSlashes]
  | cons c p ih =>
    unfold collapseSlashes
    by_cases hs : c = 47 ∧ byteAt p 0 = 47
    · rw [if_pos hs]
      simp only [List.length_cons]
      omega
    · rw [if_neg hs]
      simp only [List.length_cons]
      omega

theorem collapseSlashes_mem (p : List Nat) : ∀ c ∈ collapseSlashes p, c ∈ p := by
  induction p with
  | nil => simp [collapseSlashes]
  | cons a p ih =>
    intro c hc
    unfold collapseSlashes at hc
    by_cases hs : a = 47 ∧ byteAt p 0 = 47
    · rw [if_pos hs] at hc
      exact List.mem_cons_of_mem _ (ih c hc)
    · rw [if_neg hs] at hc
      rcases List.mem_cons.mp hc with h | h
      · simp [h]
      · exact List.mem_cons_of_mem _ (ih c h)

theorem mangleKey_split (p : List Nat) :
    ∃ tl, mangleKey p ++ tl = collapseSlashes p := by
  unfold mangleKey
  exact List.rdropWhile_prefix isDotSlash (collapseSlashes p)

theorem mangleKey_mem (p : List Nat) : ∀ c ∈ mangleKey p, c ∈ p := by
  intro c hc
  obtain ⟨tl, h⟩ := mangleKey_split p
  apply collapseSlashes_mem
  rw [← h]
  exact List.mem_append_left _ hc

/-- The memory left at dst by iso_mangle_name for a source whose part before
the first whitespace byte is p, shorter than FILENAME_MAX: the key, then NUL
bytes, then the old contents from index FILENAME_MAX minus the number of
dropped slashes on. -/
theorem iso_mangle_name_eq (F : Nat) (dst p term : List Nat)
    (hp : ∀ c ∈ p, 32 < c) (ht : not_whitespace (byteAt term 0) = false)
    (hlen : p.length < F) (hdst : F ≤ dst.length) :
    iso_mangle_name F dst (p ++ term)
      = mangleKey p
        ++ List.replicate (F - p.length + (collapseSlashes p).length - (mangleKey p).length) 0
        ++ dst.drop (F - p.length + (collapseSlashes p).length) := by
  have hwl := collapseSlashes_length_le p
  obtain ⟨tl, htl⟩ := mangleKey_split p
  have hkl : (mangleKey p).length + tl.length = (collapseSlashes p).length := by
    rw [← htl, List.length_append]
  unfold iso_mangle_name
  rw [mangle_copy_eq p term dst 0 ((F : Int) - 1) hp ht (by omega)]
  simp only [List.take_zero, List.nil_append, Nat.zero_add]
  have hbt : (collapseSlashes p ++ dst.drop (collapseSlashes p).length).take
      (collapseSlashes p).length = collapseSlashes p := List.take_left' rfl
  rw [mangle_strip_eq _ _ _ (by simp)]
  simp only [hbt]
  have hk : ((collapseSlashes p).rdropWhile isDotSlash) = mangleKey p := rfl
  rw [hk]
  have hn : ((F : Int) - 1 - (p.length : Nat)
      + (((collapseSlashes p).length : Nat) - ((mangleKey p).length : Nat)) + 1).toNat
      = F - p.length + (collapseSlashes p).length - (mangleKey p).length := by
    omega
  rw [hn]
  rw [mangle_pad_eq _ _ _ (by simp; omega)]
  have e1 : (collapseSlashes p ++ dst.drop (collapseSlashes p).length).take (mangleKey p).length
      = mangleKey p := by
    rw [← htl, List.append_assoc]
    exact List.take_left' rfl
  have e2 : (collapseSlashes p ++ dst.drop (collapseSlashes p).length).drop
      ((mangleKey p).length
        + (F - p.length + (collapseSlashes p).length - (mangleKey p).length))
      = dst.drop (F - p.length + (collapseSlashes p).length) := by
    have hm : (mangleKey p).length
        + (F - p.length + (collapseSlashes p).length - (mangleKey p).length)
        = (collapseSlashes p).length + (F - p.length) := by omega
    rw [hm, List.drop_append, List.drop_drop]
    congr 1
    omega
  rw [e1, e2]

theorem rdropWhile_cons (f : Nat → Bool) (c : Nat) (x : List Nat) :
    (c :: x).rdropWhile f
      = if x.rdropWhile f = [] then (if f c then [] else [c]) else c :: x.rdropWhile f := by
  induction x using List.reverseRecOn with
  | nil =>
    have : ([c] : List Nat) = [] ++ [c] := rfl
    rw [this, List.rdropWhile_concat]
    simp [List.rdropWhile]
  | append_singleton y a ih =>
    have : c :: (y ++ [a]) = (c :: y) ++ [a] := rfl
    rw [this, List.rdropWhile_concat, List.rdropWhile_concat]
    by_cases ha : f a = true
    · simp only [ha, if_true]
      exact ih
    · simp [ha]

theorem rdropWhile_cons_congr (f : Nat → Bool) (c : Nat) (x y : List Nat)
    (h : x.rdropWhile f = y.rdropWhile f) :
    (c :: x).rdropWhile f = (c :: y).rdropWhile f := by
  rw [rdropWhile_cons, rdropWhile_cons, h]

theorem collapseSlashes_run (X : List Nat) :
    ∀ k, collapseSlashes (List.replicate (k + 1) 47 ++ X) = collapseSlashes (47 :: X) := by
  intro k
  induction k with
  | zero => simp
  | succ k ih =>
    rw [List.replicate_succ, List.cons_append, collapseSlashes]
    have : byteAt (List.replicate (k + 1) 47 ++ X) 0 = 47 := by
      simp [byteAt, List.replicate_succ]
    simp only [this, and_self, if_true]
    exact ih

theorem mangleKey_expand :
    ∀ (p ks : List Nat) (t : Nat),
      mangleKey (expandSlashes p ks ++ List.replicate t 47) = mangleKey p := by
  intro p
  induction p with
  | nil =>
    intro ks t
    cases t with
    | zero => simp [expandSlashes]
    | succ t =>
      have := collapseSlashes_run [] t
      simp only [List.append_nil] at this
      simp only [expandSlashes, List.nil_append, mangleKey, this]
      simp [collapseSlashes, byteAt, List.rdropWhile, isDotSlash]
  | cons c p ih =>
    intro ks t
    unfold mangleKey at ih ⊢
    by_cases hc : c = 47
    · subst hc
      simp only [expandSlashes, if_true, List.append_assoc]
      rw [collapseSlashes_run]
      cases p with
      | nil =>
        simp only [expandSlashes, List.nil_append]
        have := collapseSlashes_run [] t
        simp only [List.append_nil] at this
        rw [← List.replicate_succ, this]
      | cons c2 p2 =>
        by_cases h2 : c2 = 47
        · subst h2
          have hx : byteAt (expandSlashes (47 :: p2) ks.tail ++ List.replicate t 47) 0 = 47 := by
            simp [expandSlashes, byteAt, List.replicate_succ]
          rw [collapseSlashes, collapseSlashes]
          simp only [hx, and_self, if_true]
          have hy : byteAt (47 :: p2) 0 = 47 := by simp [byteAt]
          simp only [hy, and_self, if_true]
          exact ih ks.tail t
        · have hx : byteAt (expandSlashes (c2 :: p2) ks.tail ++ List.replicate t 47) 0 ≠ 47 := by
            simp [expandSlashes, byteAt, h2]
          have hy : byteAt (c2 :: p2) 0 ≠ 47 := by simp [byteAt, h2]
          rw [collapseSlashes, collapseSlashes]
          simp only [hx, hy, and_false, if_false]
          exact rdropWhile_cons_congr _ _ _ _ (ih ks.tail t)
    · simp only [expandSlashes, hc, if_false, List.cons_append]
      rw [collapseSlashes, collapseSlashes]
      simp only [hc, false_and, if_false]
      exact rdropWhile_cons_congr _ _ _ _ (ih ks t)

theorem expandSlashes_mem (p : List Nat) :
    ∀ (ks : List Nat) (t : Nat), (∀ c ∈ p, 32 < c) →
      ∀ c ∈ expandSlashes p ks ++ List.replicate t 47, 32 < c := by
  induction p with
  | nil =>
    intro ks t _ c hc
    simp only [expandSlashes, List.nil_append] at hc
    rw [List.eq_of_mem_replicate hc]
    decide
  | cons a p ih =>
    intro ks t hp c hc
    have hp2 : ∀ x ∈ p, 32 < x := fun x hx => hp x (by simp [hx])
    by_cases ha : a = 47
    · simp only [expandSlashes, ha, if_true, List.append_assoc] at hc
      rcases List.mem_append.mp hc with h | h
      · rw [List.eq_of_mem_replicate h]
        decide
      · exact ih ks.tail t hp2 c h
    · simp only [expandSlashes, ha, if_false, List.cons_append] at hc
      rcases List.mem_cons.mp hc with h | h
      · rw [h]
        exact hp a (by simp)
      · exact ih ks t hp2 c h

/-! ## The name codec: mangling -/

/-- C9: for a path p without whitespace bytes, and p2 obtained from p by
turning slashes into longer runs of slashes and appending t slashes, both
shorter than FILENAME_MAX, iso_mangle_name leaves the same NUL-terminated key
in the destination for p2 and for p, whatever the two destination buffers held:
the key is p with slash runs collapsed and the trailing dots and slashes
removed. -/
theorem mangle_slash_canonical (F : Nat) (dst dst2 p ks : List Nat) (t : Nat)
    (hp : ∀ c ∈ p, 32 < c) (hlen : p.length < F)
    (hlen2 : (expandSlashes p ks ++ List.replicate t 47).length < F)
    (hd : dst.length = F) (hd2 : dst2.length = F) :
    cstr (iso_mangle_name F dst (expandSlashes p ks ++ List.replicate t 47))
      = cstr (iso_mangle_name F dst2 p)
    ∧ cstr (iso_mangle_name F dst2 p) = mangleKey p
    ∧ (cstr (iso_mangle_name F dst (expandSlashes p ks ++ List.replicate t 47))).length < F
    ∧ (cstr (iso_mangle_name F dst2 p)).length < F := by
  have key : ∀ (b q : List Nat), (∀ c ∈ q, 32 < c) → q.length < F → b.length = F →
      cstr (iso_mangle_name F b q) = mangleKey q ∧ (mangleKey q).length < F := by
    intro b q hq hql hb
    have h := iso_mangle_name_eq F b q [] hq (by simp [byteAt, not_whitespace]) hql (by omega)
    rw [List.append_nil] at h
    have hwl := collapseSlashes_length_le q
    obtain ⟨tl, htl⟩ := mangleKey_split q
    have hkl : (mangleKey q).length + tl.length = (collapseSlashes q).length := by
      rw [← htl, List.length_append]
    obtain ⟨n, hn⟩ : ∃ n, F - q.length + (collapseSlashes q).length - (mangleKey q).length
        = n + 1 := ⟨F - q.length + (collapseSlashes q).length - (mangleKey q).length - 1, by omega⟩
    rw [h, hn, List.replicate_succ, List.append_assoc, List.cons_append]
    refine ⟨cstr_append_nul _ _ ?_, by omega⟩
    intro c hc
    have := hq c (mangleKey_mem q c hc)
    omega
  have k1 := key dst (expandSlashes p ks ++ List.replicate t 47)
    (expandSlashes_mem p ks t hp) hlen2 hd
  have k2 := key dst2 p hp hlen hd2
  rw [mangleKey_expand] at k1
  refine ⟨by rw [k1.1, k2.1], k2.1, ?_, ?_⟩
  · rw [k1.1]
    exact k1.2
  · rw [k2.1]
    exact k2.2

/-- C9, at "/boot/isolinux" and "/boot//isolinux/" with FILENAME_MAX = 256: the
key is "/boot/isolinux" for both. -/
theorem mangle_slash_canonical_witness :
    ((∀ c ∈ [47, 98, 111, 111, 116, 47, 105, 115, 111, 108, 105, 110, 117, 120], 32 < c)
      ∧ [47, 98, 111, 111, 116, 47, 105, 115, 111, 108, 105, 110, 117, 120].length < 256
      ∧ (expandSlashes [47, 98, 111, 111, 116, 47, 105, 115, 111, 108, 105, 110, 117, 120] [0, 1]
          ++ List.replicate 1 47)
          = [47, 98, 111, 111, 116, 47, 47, 105, 115, 111, 108, 105, 110, 117, 120, 47])
    ∧ cstr (iso_mangle_name 256 (List.replicate 256 255)
          [47, 98, 111, 111, 116, 47, 47, 105, 115, 111, 108, 105, 110, 117, 120, 47])
        = cstr (iso_mangle_name 256 (List.replicate 256 0)
          [47, 98, 111, 111, 116, 47, 105, 115, 111, 108, 105, 110, 117, 120])
    ∧ mangleKey [47, 98, 111, 111, 116, 47, 105, 115, 111, 108, 105, 110, 117, 120]
        = [47, 98, 111, 111, 116, 47, 105, 115, 111, 108, 105, 110, 117, 120] :=
  ⟨⟨by decide, by decide, by decide⟩,
    (mangle_slash_canonical 256 (List.replicate 256 255) (List.replicate 256 0)
      [47, 98, 111, 111, 116, 47, 105, 115, 111, 108, 105, 110, 117, 120] [0, 1] 1
      (by decide) (by decide) (by decide) (List.length_replicate 256 255)
      (List.length_replicate 256 0)).1,
    by decide⟩

/-- C10 fails at the source "a//b" with FILENAME_MAX = 256 and a destination
that held 0xFF in every byte: the slash that is dropped is counted as a byte of
the key, so the call stores "a/b" and 252 NUL bytes, 255 bytes in all, and the
last byte of the buffer keeps its old content. -/
theorem mangle_pad_short :
    iso_mangle_name 256 (List.replicate 256 255) [97, 47, 47, 98]
        = [97, 47, 98] ++ List.replicate 252 0 ++ [255]
    ∧ byteAt (iso_mangle_name 256 (List.replicate 256 255) [97, 47, 47, 98]) (256 - 1) = 255 := by
  have h := iso_mangle_name_eq 256 (List.replicate 256 255) [97, 47, 47, 98] []
    (by decide) (by decide) (by decide) (by rw [List.length_replicate])
  have hk : mangleKey [97, 47, 47, 98] = [97, 47, 98] := by decide
  have hw : collapseSlashes [97, 47, 47, 98] = [97, 47, 98] := by decide
  rw [List.append_nil, hk, hw, List.drop_replicate] at h
  have e : iso_mangle_name 256 (List.replicate 256 255) [97, 47, 47, 98]
      = [97, 47, 98] ++ List.replicate 252 0 ++ [255] := h
  refine ⟨e, ?_⟩
  rw [e]
  have hl : ([97, 47, 98] ++ List.replicate 252 0).length = 255 := by
    rw [List.length_append, List.length_replicate]
    rfl
  have := byteAt_append_right ([97, 47, 98] ++ List.replicate 252 0) [255] 0
  rw [hl] at this
  exact this

/-! ## Lemmas on the loop of iso_find_entry -/

theorem BLOCK_SIZE_eq : BLOCK_SIZE = 2048 := rfl

theorem find_loop_of_run (get_cache : Nat → List Nat) (dname : List Nat) (blocks : Nat) :
    ∀ (k : Nat) (s s2 : FindState),
      find_run get_cache dname blocks k s = FindStep.cont s2 →
      ∀ n, find_loop get_cache dname blocks (k + n) s = find_loop get_cache dname blocks n s2 := by
  intro k
  induction k with
  | zero =>
    intro s s2 h n
    simp only [find_run, FindStep.cont.injEq] at h
    simp [h]
  | succ k ih =>
    intro s s2 h n
    rw [find_run] at h
    have e : k + 1 + n = (k + n) + 1 := by omega
    rw [e, find_loop]
    cases hs : find_step get_cache dname blocks s with
    | cont s3 =>
      rw [hs] at h
      exact ih s3 s2 h n
    | done r s3 =>
      rw [hs] at h
      simp at h

theorem find_loop_diverges (get_cache : Nat → List Nat) (dname : List Nat) (blocks : Nat) :
    ∀ (k : Nat) (s s2 : FindState),
      find_run get_cache dname blocks k s = FindStep.cont s2 →
      find_step get_cache dname blocks s2 = FindStep.cont s2 →
      ∀ fuel, find_loop get_cache dname blocks fuel s = none := by
  intro k
  induction k with
  | zero =>
    intro s s2 h hfix fuel
    simp only [find_run, FindStep.cont.injEq] at h
    subst h
    induction fuel with
    | zero => rfl
    | succ n ihn => rw [find_loop, hfix]; exact ihn
  | succ k ih =>
    intro s s2 h hfix fuel
    rw [find_run] at h
    cases fuel with
    | zero => rfl
    | succ n =>
      rw [find_loop]
      cases hs : find_step get_cache dname blocks s with
      | cont s3 =>
        rw [hs] at h
        exact ih s3 s2 h hfix n
      | done r s3 =>
        rw [hs] at h
        simp at h

/-- An iteration of iso_find_entry that reads a zero length byte in the held
block leaves every variable of the loop as it was: `cs = NULL; continue;` does
not release the block. -/
theorem find_step_zero_length (get_cache : Nat → List Nat) (dname : List Nat) (blocks : Nat)
    (s : FindState) (d : List Nat) (hd : s.data = some d) (h0 : byteAt d s.offset = 0) :
    find_step get_cache dname blocks s = FindStep.cont s := by
  unfold find_step
  rw [hd]
  simp [find_body, de_length, byteAt_drop, h0]

/-! ## The entry resolver -/

/-- C1 fails on a directory of two blocks whose first matching record lies in
the second block: for ".", ".." and padding in block 20 and "FOO.TXT;1" and
padding in block 21, the search for "foo.txt" reaches the zero length byte at
offset 68 of the first block and repeats that iteration for ever, since `data`
is not reset; it returns within no number of iterations. On the one-block
directory of the claim the record "FOO.TXT;1" is returned in the third
iteration, by a pointer into the cached block. The last part records that the
two blocks are well formed and that the record "FOO.TXT;1" matches the
query. -/
theorem find_entry_second_block_diverges :
    (∀ fuel, iso_find_entry cacheTwo nameFoo dirTwo fuel = none)
    ∧ (∀ n, iso_find_entry cacheOne nameFoo dirOne (3 + n) = some (some (DePtr.cache recFoo)))
    ∧ (cacheTwo 20 = recDot ++ recDotDot ++ List.replicate 1980 0
        ∧ cacheTwo 21 = recFoo ++ List.replicate 2006 0
        ∧ (cacheTwo 20).length = BLOCK_SIZE ∧ (cacheTwo 21).length = BLOCK_SIZE
        ∧ iso_compare_name (normalize_name recFoo).1 (normalize_name recFoo).2 nameFoo = 1) := by
  refine ⟨?_, ?_, by decide!, by decide!, by decide!, by decide!, by decide!⟩
  · intro fuel
    have h := find_loop_diverges cacheTwo nameFoo 2 2 (find_init dirTwo)
      { i := 1, offset := 68, data := some blockDots, dir_block := 21, reqs := [20] }
      (by rfl) (by rfl) fuel
    unfold iso_find_entry
    rw [show dirTwo.blocks = 2 from rfl, h]
    rfl
  · intro n
    have h := find_loop_of_run cacheOne nameFoo 1 2 (find_init dirOne)
      { i := 1, offset := 68, data := some blockAll, dir_block := 21, reqs := [20] }
      (by rfl) (1 + n)
    unfold iso_find_entry
    rw [show dirOne.blocks = 1 from rfl, show 3 + n = 2 + (1 + n) by omega, h,
      show 1 + n = n + 1 by omega, find_loop]
    rfl

/-- C2 fails on the directory of the claim itself: in the one block with ".",
"..", "FOO.TXT;1", "BAR" and zero padding, the search for "baz" passes the four
records, reaches the zero length byte at offset 146 and repeats that iteration
for ever; NULL is returned within no number of iterations. The last part
records that the block is well formed and that none of its four records matches
the query. -/
theorem find_entry_padding_diverges :
    (∀ fuel, iso_find_entry cacheOne nameBaz dirOne fuel = none)
    ∧ (cacheOne 20 = recDot ++ recDotDot ++ recFoo ++ recBar ++ List.replicate 1902 0
        ∧ (cacheOne 20).length = BLOCK_SIZE
        ∧ iso_compare_name (normalize_name recDot).1 (normalize_name recDot).2 nameBaz = 0
        ∧ iso_compare_name (normalize_name recDotDot).1 (normalize_name recDotDot).2 nameBaz = 0
        ∧ iso_compare_name (normalize_name recFoo).1 (normalize_name recFoo).2 nameBaz = 0
        ∧ iso_compare_name (normalize_name recBar).1 (normalize_name recBar).2 nameBaz = 0) := by
  refine ⟨?_, by decide!, by decide!, by decide!, by decide!, by decide!, by decide!⟩
  intro fuel
  have h := find_loop_diverges cacheOne nameBaz 1 4 (find_init dirOne)
    { i := 1, offset := 146, data := some blockAll, dir_block := 21, reqs := [20] }
    (by rfl) (by rfl) fuel
  unfold iso_find_entry
  rw [show dirOne.blocks = 1 from rfl, h]
  rfl

/-! ## The enumerator -/

theorem readdir_loop_mono (get_cache : Nat → List Nat) (blocks : Nat) :
    ∀ (fuel : Nat) (s : ReaddirState) (e : ReaddirExit),
      readdir_loop get_cache blocks fuel s = some e →
      ∀ n, readdir_loop get_cache blocks (fuel + n) s = some e := by
  intro fuel
  induction fuel with
  | zero => intro s e h; simp [readdir_loop] at h
  | succ k ih =>
    intro s e h n
    have eq : k + 1 + n = (k + n) + 1 := by omega
    rw [eq, readdir_loop]
    rw [readdir_loop] at h
    cases hs : readdir_step get_cache blocks s with
    | cont s2 =>
      rw [hs] at h
      exact ih s2 e h n
    | exit e2 =>
      rw [hs] at h
      exact h

theorem iso_readdir_mono (get_cache : Nat → List Nat) (dir : inode) (off fuel : Nat)
    (r : Option dirent × Nat × List Nat)
    (h : iso_readdir get_cache dir off fuel = some r) :
    ∀ n, iso_readdir get_cache dir off (fuel + n) = some r := by
  intro n
  unfold iso_readdir at h ⊢
  cases hl : readdir_loop get_cache dir.blocks fuel (readdir_init dir off) with
  | none => rw [hl] at h; simp at h
  | some e =>
    rw [hl] at h
    rw [readdir_loop_mono get_cache dir.blocks fuel _ e hl n]
    exact h

theorem readdir_all_mono (get_cache : Nat → List Nat) (dir : inode) (fuel : Nat) :
    ∀ (calls off : Nat) (acc : List dirent) (r : List dirent × Nat),
      readdir_all get_cache dir fuel calls off acc = some r →
      ∀ n m, readdir_all get_cache dir (fuel + n) (calls + m) off acc = some r := by
  intro calls
  induction calls with
  | zero => intro off acc r h; simp [readdir_all] at h
  | succ k ih =>
    intro off acc r h n m
    have eq : k + 1 + m = (k + m) + 1 := by omega
    rw [eq, readdir_all]
    rw [readdir_all] at h
    cases hc : iso_readdir get_cache dir off fuel with
    | none => rw [hc] at h; simp at h
    | some x =>
      rw [hc] at h
      rw [iso_readdir_mono get_cache dir off fuel x hc n]
      obtain ⟨d, off2, rq⟩ := x
      cases d with
      | none => exact h
      | some d => exact ih off2 (acc ++ [d]) r h n m

/-- C3 fails on the two-block directory with ".", ".." and padding in block 20
and "FOO.TXT;1" and padding in block 21. The first two calls return "." and
".." and leave the cursor at 68. The third call finds the zero length byte at
offset 68, sets file->offset to (68 + 2047) >> 11 = 1, a block count and not a
byte offset, and reads block 21 at the unchanged in-block offset 68, in the
padding; it returns NULL with the cursor at 1, after it has asked for blocks 20
and 21. Whatever the budgets, from three iterations and three calls on, the
record "FOO.TXT;1" is not listed and the cursor ends at 1 and not at 4096. -/
theorem readdir_skips_second_block :
    (∀ n m, readdir_all cacheTwo dirTwo (3 + n) (3 + m) 0 []
      = some ([{ d_ino := 0, d_off := 0, d_reclen := 34, d_type := inode_mode.I_DIR,
                 d_name := [46, 0] },
               { d_ino := 0, d_off := 34, d_reclen := 34, d_type := inode_mode.I_DIR,
                 d_name := [46, 46, 0] }], 1))
    ∧ (∀ n, iso_readdir cacheTwo dirTwo 68 (3 + n) = some (none, 1, [20, 21]))
    ∧ cacheTwo 21 = recFoo ++ List.replicate 2006 0
    ∧ (cacheTwo 20).length = BLOCK_SIZE ∧ (cacheTwo 21).length = BLOCK_SIZE := by
  refine ⟨fun n m => readdir_all_mono cacheTwo dirTwo 3 3 0 [] _ (by decide!) n m,
    fun n => iso_readdir_mono cacheTwo dirTwo 68 3 _ (by decide!) n, by decide!, by decide!,
    by decide!⟩

/-! ## Records that straddle a block boundary -/

theorem mask_block (x : Nat) (h1 : BLOCK_SIZE ≤ x) (h2 : x < 2 * BLOCK_SIZE) :
    x &&& (BLOCK_SIZE - 1) = x - BLOCK_SIZE := by
  have e : BLOCK_SIZE - 1 = 2 ^ 11 - 1 := rfl
  rw [e, Nat.and_pow_two_sub_one_eq_mod]
  rw [BLOCK_SIZE_eq] at h1 h2 ⊢
  omega

/-- The iteration of iso_find_entry on a record that straddles the end of the
held block B: when the record at in-block offset o has a length byte L >= 33
with o + L > 2048, one more block is within the budget, and the name of the
assembled record lies within its L bytes, the iteration fetches block B+1 and
works on the L bytes made of block B from o to its end and of the first
o + L - 2048 bytes of block B+1; these are the bytes of any record r that is
split in this way. When the name matches, the iteration returns the address of
tmpde, which holds these bytes at the return; otherwise the loop goes on in
block B+1 at offset o + L - 2048. -/
theorem find_step_straddle (get_cache : Nat → List Nat) (dname : List Nat) (blocks B : Nat)
    (s : FindState)
    (hdata : s.data = some (get_cache B)) (hdir : s.dir_block = B + 1)
    (hlenB : (get_cache B).length = BLOCK_SIZE) (hlenN : (get_cache (B + 1)).length = BLOCK_SIZE)
    (ho : s.offset < BLOCK_SIZE)
    (hL : 33 ≤ byteAt (get_cache B) s.offset) (hbyte : byteAt (get_cache B) s.offset < 256)
    (hstr : BLOCK_SIZE < s.offset + byteAt (get_cache B) s.offset)
    (_hname : 33 + de_name_len (straddleRecord (get_cache B) (get_cache (B + 1)) s.offset
        (byteAt (get_cache B) s.offset)) ≤ byteAt (get_cache B) s.offset)
    (hbudget : s.i + 1 ≤ blocks) :
    (straddleRecord (get_cache B) (get_cache (B + 1)) s.offset
        (byteAt (get_cache B) s.offset)).length = byteAt (get_cache B) s.offset
    ∧ (∀ r : List Nat,
        (get_cache B).drop s.offset = r.take (BLOCK_SIZE - s.offset) →
        (get_cache (B + 1)).take (s.offset + byteAt (get_cache B) s.offset - BLOCK_SIZE)
          = r.drop (BLOCK_SIZE - s.offset) →
        straddleRecord (get_cache B) (get_cache (B + 1)) s.offset
          (byteAt (get_cache B) s.offset) = r)
    ∧ find_step get_cache dname blocks s
      = if iso_compare_name
            (normalize_name (straddleRecord (get_cache B) (get_cache (B + 1)) s.offset
              (byteAt (get_cache B) s.offset))).1
            (normalize_name (straddleRecord (get_cache B) (get_cache (B + 1)) s.offset
              (byteAt (get_cache B) s.offset))).2 dname ≠ 0
        then FindStep.done
          (some (DePtr.tmpde (straddleRecord (get_cache B) (get_cache (B + 1)) s.offset
            (byteAt (get_cache B) s.offset))))
          { i := s.i + 1, offset := s.offset + byteAt (get_cache B) s.offset - BLOCK_SIZE,
            data := some (get_cache (B + 1)), dir_block := B + 2,
            reqs := s.reqs ++ [B + 1] }
        else FindStep.cont
          { i := s.i + 1, offset := s.offset + byteAt (get_cache B) s.offset - BLOCK_SIZE,
            data := some (get_cache (B + 1)), dir_block := B + 2,
            reqs := s.reqs ++ [B + 1] } := by
  have hbs := BLOCK_SIZE_eq
  have hlen : (straddleRecord (get_cache B) (get_cache (B + 1)) s.offset
      (byteAt (get_cache B) s.offset)).length = byteAt (get_cache B) s.offset := by
    simp only [straddleRecord, List.length_append, List.length_drop, List.length_take, hlenB,
      hlenN]
    omega
  refine ⟨hlen, ?_, ?_⟩
  · intro r h1 h2
    simp only [straddleRecord, h1, h2, List.take_append_drop]
  · have hde : de_length ((get_cache B).drop s.offset) = byteAt (get_cache B) s.offset := by
      simp [de_length, byteAt_drop]
    have hne : byteAt (get_cache B) s.offset ≠ 0 := by omega
    have hge : s.offset + byteAt (get_cache B) s.offset ≥ BLOCK_SIZE := by omega
    have hmask : (s.offset + byteAt (get_cache B) s.offset) &&& (BLOCK_SIZE - 1)
        = s.offset + byteAt (get_cache B) s.offset - BLOCK_SIZE :=
      mask_block _ hge (by omega)
    have hmne : s.offset + byteAt (get_cache B) s.offset - BLOCK_SIZE ≠ 0 := by omega
    have hbud : ¬ (s.i + 1 > blocks) := by omega
    have htake : ((get_cache B).drop s.offset).take
        (byteAt (get_cache B) s.offset + BLOCK_SIZE
          - (s.offset + byteAt (get_cache B) s.offset))
        = (get_cache B).drop s.offset := by
      apply List.take_of_length_le
      simp only [List.length_drop, hlenB]
      omega
    have h33 : ¬ (byteAt (get_cache B) s.offset < 33) := by omega
    have hfull : (straddleRecord (get_cache B) (get_cache (B + 1)) s.offset
        (byteAt (get_cache B) s.offset)).take (byteAt (get_cache B) s.offset)
        = straddleRecord (get_cache B) (get_cache (B + 1)) s.offset
          (byteAt (get_cache B) s.offset) :=
      List.take_of_length_le (by omega)
    unfold find_step
    rw [hdata]
    simp only [find_body, hde, hne, hge, hmask, hmne, hbud, htake, hdir, if_true, if_false,
      ne_eq, not_false_eq_true, find_check, h33]
    simp only [straddleRecord] at hfull ⊢
    rw [hfull]

/-- A run of iso_find_entry from the iterations of its loop: when the first k
iterations go on and the next one returns r, the function returns r for every
budget of more than k iterations. -/
theorem iso_find_entry_of_run (get_cache : Nat → List Nat) (dname : List Nat) (dir : inode)
    (k : Nat) (s2 s3 : FindState) (r : Option DePtr)
    (hrun : find_run get_cache dname dir.blocks k (find_init dir) = FindStep.cont s2)
    (hstep : find_step get_cache dname dir.blocks s2 = FindStep.done r s3) (n : Nat) :
    iso_find_entry get_cache dname dir (k + 1 + n) = some r := by
  unfold iso_find_entry
  rw [show k + 1 + n = k + (n + 1) by omega,
    find_loop_of_run get_cache dname dir.blocks k (find_init dir) s2 hrun (n + 1), find_loop,
    hstep]
  rfl

/-- C4 fails on the two-block directory whose record "FOO.TXT;1" of 42 bytes
starts at offset 2028 of block 20 and ends at offset 22 of block 21, for the
query "foo.txt". The search reaches that record after eight iterations; the
ninth fetches block 21, assembles in tmpde the 42 bytes of the unsplit record,
whose name lies within them, compares them with the query and goes on at offset
22 of block 21, as the claim says. But what it returns is the address of tmpde,
a local variable of iso_find_entry whose lifetime ends with that return: the
caller is handed no record. iso_iget passes the pointer to iso_get_inode, which
calls new_iso_inode before it reads flags, size and extent, so the inode is
built from whatever bytes that call and the allocator have left in the dead
frame, and not from the record: with zero bytes left there the file of 100 bytes
at block 30 becomes a file of size 0 at block 0. A record that lies within one
block is returned by a pointer into the cache, and the inode is built from the
record whatever happens to the stack. -/
theorem find_entry_returns_local :
    (∀ n, iso_find_entry cacheStraddle nameFoo dirTwo (9 + n)
        = some (some (DePtr.tmpde recFoo)))
    ∧ find_run cacheStraddle nameFoo 2 8 (find_init dirTwo) = FindStep.cont stateStraddle
    ∧ find_step cacheStraddle nameFoo 2 stateStraddle
        = FindStep.done (some (DePtr.tmpde recFoo))
            { i := 2, offset := 22, data := some blockTail, dir_block := 22, reqs := [20, 21] }
    ∧ (straddleRecord (cacheStraddle 20) (cacheStraddle 21) 2028 42 = recFoo
        ∧ (cacheStraddle 20).drop 2028 = recFoo.take 20
        ∧ (cacheStraddle 21).take 22 = recFoo.drop 20
        ∧ byteAt (cacheStraddle 20) 2028 = 42
        ∧ 33 + de_name_len recFoo ≤ de_length recFoo
        ∧ (cacheStraddle 20).length = BLOCK_SIZE ∧ (cacheStraddle 21).length = BLOCK_SIZE)
    ∧ (∀ (clobber : List Nat → List Nat) (n : Nat),
        iso_iget cacheStraddle clobber nameFoo dirTwo (9 + n)
          = some (some (iso_get_inode (clobber recFoo))))
    ∧ iso_get_inode recFoo
        = { mode := inode_mode.I_FILE, size := 100, pvt := 30, blocks := 1 }
    ∧ iso_iget cacheStraddle (fun _ => List.replicate 42 0) nameFoo dirTwo 9
        = some (some { mode := inode_mode.I_FILE, size := 0, pvt := 0, blocks := 0 })
    ∧ (∀ (clobber : List Nat → List Nat) (n : Nat),
        iso_iget cacheOne clobber nameFoo dirOne (3 + n)
          = some (some (iso_get_inode recFoo))) := by
  have hrun : find_run cacheStraddle nameFoo dirTwo.blocks 8 (find_init dirTwo)
      = FindStep.cont stateStraddle := by decide!
  have hstep : find_step cacheStraddle nameFoo dirTwo.blocks stateStraddle
      = FindStep.done (some (DePtr.tmpde recFoo))
          { i := 2, offset := 22, data := some blockTail, dir_block := 22,
            reqs := [20, 21] } := by decide!
  have hfind : ∀ n, iso_find_entry cacheStraddle nameFoo dirTwo (9 + n)
      = some (some (DePtr.tmpde recFoo)) := fun n => by
    rw [show 9 + n = 8 + 1 + n by omega]
    exact iso_find_entry_of_run cacheStraddle nameFoo dirTwo 8 stateStraddle _ _ hrun hstep n
  have hone : ∀ n, iso_find_entry cacheOne nameFoo dirOne (3 + n)
      = some (some (DePtr.cache recFoo)) := fun n => by
    rw [show 3 + n = 2 + 1 + n by omega]
    exact iso_find_entry_of_run cacheOne nameFoo dirOne 2
      { i := 1, offset := 68, data := some blockAll, dir_block := 21, reqs := [20] }
      { i := 1, offset := 110, data := some blockAll, dir_block := 21, reqs := [20] }
      _ (by decide!) (by decide!) n
  refine ⟨hfind, hrun, hstep,
    ⟨by decide!, by decide!, by decide!, by decide!, by decide!, by decide!, by decide!⟩,
    ?_, by decide!, by decide!, ?_⟩
  · intro clobber n
    simp only [iso_iget, hfind n]
  · intro clobber n
    simp only [iso_iget, hone n]

/-! ## The inode builder -/

theorem BLOCK_SHIFT_eq : BLOCK_SHIFT = 11 := rfl

/-- The block count of iso_get_inode and iso_iget_root is the rounded-up
quotient as long as the 32-bit sum does not wrap, that is for a size field of
at most 2^32 - 2048. -/
theorem inode_blocks_ceil (de : List Nat) (hs : de_size de + 2047 < 2 ^ 32)
    (he : de_extent de < 2 ^ 32) :
    (iso_get_inode de).size = de_size de
    ∧ (iso_get_inode de).pvt = de_extent de
    ∧ (iso_get_inode de).blocks = (de_size de + 2047) / 2048
    ∧ (iso_iget_root de).size = de_size de
    ∧ (iso_iget_root de).pvt = de_extent de
    ∧ (iso_iget_root de).blocks = (de_size de + 2047) / 2048 := by
  have h1 : de_size de % 2 ^ 32 = de_size de := Nat.mod_eq_of_lt (by omega)
  have h2 : de_extent de % 2 ^ 32 = de_extent de := Nat.mod_eq_of_lt he
  have h3 : (de_size de + BLOCK_SIZE - 1) % 2 ^ 32 = de_size de + 2047 := by
    rw [BLOCK_SIZE_eq]
    exact Nat.mod_eq_of_lt (by omega)
  simp only [iso_get_inode, iso_iget_root, h1, h2, h3, BLOCK_SHIFT_eq, Nat.shiftRight_eq_div_pow]
  norm_num

/-- C12 fails for a size field above 2^32 - 2048: for the record "BIG" with the
size field 0xFFFFFFFF the 32-bit sum size + 2047 wraps to 2046, and both builders
store blocks = 0, where the rounded-up quotient is 2097152. Size and extent are
the fields of the record, and the root record with extent 20 and size 4096 gets
blocks = 2. -/
theorem inode_blocks_wrap :
    iso_get_inode recHuge
        = { mode := inode_mode.I_FILE, size := 4294967295, pvt := 40, blocks := 0 }
    ∧ iso_iget_root recHuge
        = { mode := inode_mode.I_DIR, size := 4294967295, pvt := 40, blocks := 0 }
    ∧ de_size recHuge = 4294967295
    ∧ (de_size recHuge + 2047) / 2048 = 2097152
    ∧ iso_iget_root recRoot
        = { mode := inode_mode.I_DIR, size := 4096, pvt := 20, blocks := 2 } := by
  decide!

/-- C16 as stated fails for a root record whose flags byte lacks the directory
bit: iso_iget_root stores the mode I_DIR without looking at the flags, while
iso_get_inode derives the mode I_FILE from them. -/
theorem iget_root_mode_counterexample :
    (iso_iget_root recRootPlain).mode = inode_mode.I_DIR
    ∧ (iso_get_inode recRootPlain).mode = inode_mode.I_FILE
    ∧ iso_iget_root recRootPlain ≠ iso_get_inode recRootPlain := by
  decide!

/-- C16 (amended): for every root record r, iso_iget_root yields the inode that
iso_get_inode builds from r with the mode replaced by I_DIR: size, extent and
blocks are the same, and the mode is the same exactly when the flag bit 0x02 of
r is set. -/
theorem iget_root_eq_get_inode (r : List Nat) :
    iso_iget_root r = { iso_get_inode r with mode := inode_mode.I_DIR }
    ∧ (iso_iget_root r).size = (iso_get_inode r).size
    ∧ (iso_iget_root r).pvt = (iso_get_inode r).pvt
    ∧ (iso_iget_root r).blocks = (iso_get_inode r).blocks
    ∧ ((iso_iget_root r).mode = (iso_get_inode r).mode ↔ de_flags r &&& 0x02 ≠ 0) := by
  refine ⟨rfl, rfl, rfl, rfl, ?_⟩
  simp only [iso_iget_root, iso_get_inode, get_inode_mode]
  by_cases h : de_flags r &&& 0x02 ≠ 0
  · simp [h]
  · simp [h]

/-! ## Reading a file -/

/-- The outcome of iso_getfssec while no 32-bit sum wraps: for offset <= size,
n * 2048 < 2^32, size - offset <= 2^32 - 2048 and a first block below 2^32. -/
theorem getfssec_no_wrap (ino : inode) (offset n : Nat)
    (hsz : ino.size < 2 ^ 32) (hoff : offset ≤ ino.size) (hn : n * 2048 < 2 ^ 32)
    (hleft : ino.size - offset + 2047 < 2 ^ 32)
    (hblk : ino.pvt + offset / 2048 < 2 ^ 32) :
    (iso_getfssec ino offset n).ret = min (n * 2048) (ino.size - offset)
    ∧ (iso_getfssec ino offset n).offset = offset + (iso_getfssec ino offset n).ret
    ∧ (iso_getfssec ino offset n).offset ≤ ino.size
    ∧ (iso_getfssec ino offset n).blocks = min n ((ino.size - offset + 2047) / 2048)
    ∧ (iso_getfssec ino offset n).block = ino.pvt + offset / 2048
    ∧ ((iso_getfssec ino offset n).have_more = false
        ↔ (iso_getfssec ino offset n).offset = ino.size) := by
  have h1 : (n <<< BLOCK_SHIFT) % 2 ^ 32 = n * 2048 := by
    rw [BLOCK_SHIFT_eq, Nat.shiftLeft_eq]
    exact Nat.mod_eq_of_lt (by omega)
  have h2 : (ino.size + 2 ^ 32 - offset) % 2 ^ 32 = ino.size - offset := by
    have e : ino.size + 2 ^ 32 - offset = (ino.size - offset) + 2 ^ 32 := by omega
    rw [e, Nat.add_mod_right]
    exact Nat.mod_eq_of_lt (by omega)
  have h3 : ((ino.size - offset + BLOCK_SIZE - 1) % 2 ^ 32) >>> BLOCK_SHIFT
      = (ino.size - offset + 2047) / 2048 := by
    rw [BLOCK_SIZE_eq, BLOCK_SHIFT_eq, Nat.shiftRight_eq_div_pow]
    have e : ino.size - offset + 2048 - 1 = ino.size - offset + 2047 := by omega
    rw [e, Nat.mod_eq_of_lt hleft]
  have h4 : (ino.pvt + (offset >>> BLOCK_SHIFT)) % 2 ^ 32 = ino.pvt + offset / 2048 := by
    have e : offset >>> 11 = offset / 2048 := by
      rw [Nat.shiftRight_eq_div_pow]
    rw [BLOCK_SHIFT_eq, e]
    exact Nat.mod_eq_of_lt hblk
  unfold iso_getfssec
  simp only [h1, h2, h3, h4]
  by_cases hc : n * 2048 ≥ ino.size - offset
  · have hm : (offset + (ino.size - offset)) % 2 ^ 32 = ino.size := by
      rw [show offset + (ino.size - offset) = ino.size by omega]
      exact Nat.mod_eq_of_lt hsz
    have hq : (ino.size - offset + 2047) / 2048 ≤ n := by omega
    simp only [hc, if_true, hm]
    refine ⟨by omega, by omega, le_refl _, ?_, trivial, by simp⟩
    by_cases hgt : n > (ino.size - offset + 2047) / 2048
    · simp only [hgt, if_true]
      omega
    · simp only [hgt, if_false]
      omega
  · have hm : (offset + n * 2048) % 2 ^ 32 = offset + n * 2048 :=
      Nat.mod_eq_of_lt (by omega)
    have hq : n ≤ (ino.size - offset + 2047) / 2048 := by omega
    simp only [hc, if_false, hm]
    refine ⟨by omega, trivial, by omega, ?_, trivial, ?_⟩
    · have hgt : ¬ n > (ino.size - offset + 2047) / 2048 := by omega
      simp only [hgt, if_false]
      omega
    · constructor
      · intro h
        simp at h
      · intro h
        omega

/-- C19 fails when more than 2^32 - 2048 bytes are left: for the file "BIG" of
0xFFFFFFFF bytes at offset 0 and a request of one block, the 32-bit sum
bytes_left + 2047 wraps to 2046, blocks_left is 0 and no block is read, where
min(1, ceil(0xFFFFFFFF / 2048)) = 1 block should be; the call still returns 2048,
moves the offset to 2048 and sets have_more. -/
theorem getfssec_blocks_wrap :
    iso_getfssec (iso_get_inode recHuge) 0 1
        = { ret := 2048, offset := 2048, have_more := true, block := 40, blocks := 0 }
    ∧ (iso_get_inode recHuge).size = 4294967295
    ∧ min 1 (((iso_get_inode recHuge).size - 0 + 2047) / 2048) = 1 := by
  decide!

/-! ## Single calls of the enumerator -/

theorem readdir_init_eq (dir : inode) (c : Nat) :
    readdir_init dir c
      = { file_offset := c, block := (dir.pvt + c / 2048) % 2 ^ 32, offset := c % 2048,
          i := 0, data := none, reqs := [] } := by
  have e1 : c >>> BLOCK_SHIFT = c / 2048 := by
    rw [BLOCK_SHIFT_eq, Nat.shiftRight_eq_div_pow]
  have e2 : c &&& (BLOCK_SIZE - 1) = c % 2048 := by
    have e : BLOCK_SIZE - 1 = 2 ^ 11 - 1 := rfl
    rw [e, Nat.and_pow_two_sub_one_eq_mod]
  simp only [readdir_init, e1, e2]

/-- C13: for a directory of at least one block and a cursor c below 2^32 such
that the block (extent + c / 2048) mod 2^32, the 32-bit sum that the code
computes, holds at offset o = c mod 2048 a record of length L >= 33 with
o + L < 2048, a call of iso_readdir asks for that block only and returns a
record with d_reclen = L, d_off = c, d_ino = 0, d_type = I_DIR when the flag bit
0x02 is set and I_FILE when not, and as d_name "." for the name byte 0x00, ".."
for the name byte 0x01, and otherwise the name converted by iso_convert_name
with A..Z turned into a..z; the cursor is left at c + L, which is below 2^32. -/
theorem readdir_single_step (get_cache : Nat → List Nat) (dir : inode) (c fuel : Nat)
    (hb : 1 ≤ dir.blocks) (hc : c < 2 ^ 32)
    (hL : 33 ≤ byteAt (get_cache ((dir.pvt + c / 2048) % 2 ^ 32)) (c % 2048))
    (hfit : c % 2048 + byteAt (get_cache ((dir.pvt + c / 2048) % 2 ^ 32)) (c % 2048) < 2048) :
    ∃ d : dirent,
      iso_readdir get_cache dir c (fuel + 1)
        = some (some d, c + byteAt (get_cache ((dir.pvt + c / 2048) % 2 ^ 32)) (c % 2048),
            [(dir.pvt + c / 2048) % 2 ^ 32])
      ∧ d.d_reclen = byteAt (get_cache ((dir.pvt + c / 2048) % 2 ^ 32)) (c % 2048)
      ∧ d.d_off = c
      ∧ d.d_ino = 0
      ∧ (d.d_type = inode_mode.I_DIR
          ↔ byteAt (get_cache ((dir.pvt + c / 2048) % 2 ^ 32)) (c % 2048 + 25) &&& 0x02 ≠ 0)
      ∧ (d.d_type = inode_mode.I_FILE
          ↔ byteAt (get_cache ((dir.pvt + c / 2048) % 2 ^ 32)) (c % 2048 + 25) &&& 0x02 = 0)
      ∧ (byteAt (get_cache ((dir.pvt + c / 2048) % 2 ^ 32)) (c % 2048 + 32) = 1
          ∧ byteAt (get_cache ((dir.pvt + c / 2048) % 2 ^ 32)) (c % 2048 + 33) = 0
          → cstr d.d_name = [46])
      ∧ (byteAt (get_cache ((dir.pvt + c / 2048) % 2 ^ 32)) (c % 2048 + 32) = 1
          ∧ byteAt (get_cache ((dir.pvt + c / 2048) % 2 ^ 32)) (c % 2048 + 33) = 1
          → cstr d.d_name = [46, 46])
      ∧ (¬ (byteAt (get_cache ((dir.pvt + c / 2048) % 2 ^ 32)) (c % 2048 + 32) = 1
            ∧ byteAt (get_cache ((dir.pvt + c / 2048) % 2 ^ 32)) (c % 2048 + 33) ≤ 1)
          → cstr d.d_name
            = (cstr (iso_convert_name ((get_cache ((dir.pvt + c / 2048) % 2 ^ 32)).drop (c % 2048 + 33))
                (byteAt (get_cache ((dir.pvt + c / 2048) % 2 ^ 32)) (c % 2048 + 32))).1).map
                (fun x => if 65 ≤ x ∧ x ≤ 90 then x + 0x20 else x))
      ∧ c + byteAt (get_cache ((dir.pvt + c / 2048) % 2 ^ 32)) (c % 2048) < 2 ^ 32 := by
  have hbs := BLOCK_SIZE_eq
  generalize hB : (dir.pvt + c / 2048) % 2 ^ 32 = B at hL hfit ⊢
  have hlen : de_length ((get_cache B).drop (c % 2048))
      = byteAt (get_cache B) (c % 2048) := by
    simp [de_length, byteAt_drop]
  have hflags : de_flags ((get_cache B).drop (c % 2048))
      = byteAt (get_cache B) (c % 2048 + 25) := by
    simp [de_flags, byteAt_drop]
  have hnl : de_name_len ((get_cache B).drop (c % 2048))
      = byteAt (get_cache B) (c % 2048 + 32) := by
    simp [de_name_len, byteAt_drop]
  have hname : de_name ((get_cache B).drop (c % 2048))
      = (get_cache B).drop (c % 2048 + 33) := by
    simp [de_name, List.drop_drop]
  have hn0 : byteAt ((get_cache B).drop (c % 2048 + 33)) 0
      = byteAt (get_cache B) (c % 2048 + 33) := by
    simp [byteAt_drop]
  have h1 : ¬ (0 + 1 > dir.blocks) := by omega
  have h2 : byteAt (get_cache B) (c % 2048) ≠ 0 := by omega
  have h3 : ¬ (c % 2048 + byteAt (get_cache B) (c % 2048) ≥ BLOCK_SIZE) := by
    omega
  have h4 : ¬ (byteAt (get_cache B) (c % 2048) < 33) := by omega
  have h5 : (c + byteAt (get_cache B) (c % 2048)) % 2 ^ 32
      = c + byteAt (get_cache B) (c % 2048) :=
    Nat.mod_eq_of_lt (by omega)
  have hrun : iso_readdir get_cache dir c (fuel + 1)
      = some (some (readdir_dirent (byteAt (get_cache B) (c % 2048))
            ((get_cache B).drop (c % 2048)) c),
          c + byteAt (get_cache B) (c % 2048), [B]) := by
    unfold iso_readdir
    rw [readdir_init_eq, hB, readdir_loop]
    simp only [readdir_step, h1, if_false, readdir_body, hlen, h2, h3, readdir_check, h4,
      Option.map_some', readdir_finish, List.nil_append, h5]
  refine ⟨_, hrun, rfl, rfl, rfl, ?_, ?_, ?_, ?_, ?_, ?_⟩
  · simp only [readdir_dirent, hflags, get_inode_mode]
    by_cases hf : byteAt (get_cache B) (c % 2048 + 25) &&& 0x02 ≠ 0
    · simp [hf]
    · simp [hf]
  · simp only [readdir_dirent, hflags, get_inode_mode]
    by_cases hf : byteAt (get_cache B) (c % 2048 + 25) &&& 0x02 ≠ 0
    · simp [hf]
    · simp only [hf, if_false, true_iff]
      exact not_not.mp hf
  · rintro ⟨ha, hb0⟩
    have hnorm : normalize_name ((get_cache B).drop (c % 2048)) = ([46], 1) := by
      simp [normalize_name, hnl, hname, hn0, ha, hb0]
    simp only [readdir_dirent, hnorm]
    decide
  · rintro ⟨ha, hb1⟩
    have hnorm : normalize_name ((get_cache B).drop (c % 2048))
        = ([46, 46], 2) := by
      simp [normalize_name, hnl, hname, hn0, ha, hb1]
    simp only [readdir_dirent, hnorm]
    decide
  · intro hne
    have hnorm : normalize_name ((get_cache B).drop (c % 2048))
        = ((get_cache B).drop (c % 2048 + 33),
           byteAt (get_cache B) (c % 2048 + 32)) := by
      have q0 : ¬ (byteAt (get_cache B) (c % 2048 + 32) = 1
          ∧ byteAt (get_cache B) (c % 2048 + 33) = 0) := by
        intro h
        exact hne ⟨h.1, by omega⟩
      have q1 : ¬ (byteAt (get_cache B) (c % 2048 + 32) = 1
          ∧ byteAt (get_cache B) (c % 2048 + 33) = 1) := by
        intro h
        exact hne ⟨h.1, by omega⟩
      simp only [normalize_name, hnl, hname, hn0, q0, q1, if_false]
    simp only [readdir_dirent, hnorm, cstr_tolower_str]
  · omega

/-- C13, on the one-block directory ".", "..", "FOO.TXT;1", "BAR" with the
cursor 68: the call returns the record of "FOO.TXT;1" as "foo.txt" with
d_reclen = 42 and d_off = 68, and leaves the cursor at 110. On the directory
with the extent 0xFFFFFFFF and the cursor 2048 + 68 the block asked for is
(0xFFFFFFFF + 1) mod 2^32 = 0, and the same record is returned with
d_off = 2116 and the cursor left at 2158. -/
theorem readdir_single_step_witness :
    (1 ≤ dirOne.blocks ∧ 68 < 2 ^ 32
      ∧ 33 ≤ byteAt (cacheOne ((dirOne.pvt + 68 / 2048) % 2 ^ 32)) (68 % 2048)
      ∧ 68 % 2048 + byteAt (cacheOne ((dirOne.pvt + 68 / 2048) % 2 ^ 32)) (68 % 2048) < 2048)
    ∧ (∃ d : dirent,
        iso_readdir cacheOne dirOne 68 (0 + 1)
          = some (some d, 68 + byteAt (cacheOne ((dirOne.pvt + 68 / 2048) % 2 ^ 32)) (68 % 2048),
              [(dirOne.pvt + 68 / 2048) % 2 ^ 32]))
    ∧ iso_readdir cacheOne dirOne 68 1
        = some (some { d_ino := 0, d_off := 68, d_reclen := 42, d_type := inode_mode.I_FILE,
                       d_name := [102, 111, 111, 46, 116, 120, 116, 0] }, 110, [20])
    ∧ (dirWrap.pvt + 2116 / 2048) % 2 ^ 32 = 0
    ∧ iso_readdir cacheWrap dirWrap 2116 1
        = some (some { d_ino := 0, d_off := 2116, d_reclen := 42, d_type := inode_mode.I_FILE,
                       d_name := [102, 111, 111, 46, 116, 120, 116, 0] }, 2158, [0]) :=
  ⟨⟨by decide!, by decide!, by decide!, by decide!⟩,
    (readdir_single_step cacheOne dirOne 68 0 (by decide!) (by decide!) (by decide!)
      (by decide!)).imp (fun _ h => h.1),
    by decide!, by decide!, by decide!⟩

/-- An iteration of iso_readdir that reads a zero length byte gives up the
block and replaces file->offset by (file->offset + 2047) >> 11, the sum taken
in 32 bits; the in-block offset, the block number and the count of blocks stay
as they are. -/
theorem readdir_body_zero_length (get_cache : Nat → List Nat) (blocks : Nat)
    (d : List Nat) (s : ReaddirState) (h0 : byteAt d s.offset = 0) :
    readdir_body get_cache blocks d s
      = ReaddirStep.cont
          { s with data := none,
                   file_offset := (s.file_offset + 2047) % 2 ^ 32 / 2048 } := by
  have e : ((s.file_offset + BLOCK_SIZE - 1) % 2 ^ 32) >>> BLOCK_SHIFT
      = (s.file_offset + 2047) % 2 ^ 32 / 2048 := by
    rw [BLOCK_SIZE_eq, BLOCK_SHIFT_eq, Nat.shiftRight_eq_div_pow]
    rfl
  simp only [readdir_body, de_length, byteAt_drop, Nat.add_zero, h0, e, if_true]

/-- C14 fails on the two-block directory with ".", ".." and padding in block 20
and, in block 21, two records "A" at offsets 0 and 34 and "FOO.TXT;1" at offset
68. From the cursor 68 the call reads the zero length byte of block 20, sets
file->offset to (68 + 2047) >> 11 = 1 where the next block boundary is 2048, and
reads block 21 at the unchanged in-block offset 68 where offset 0 holds the next
record: it returns "FOO.TXT;1" with d_off = 1 and leaves the cursor at 43. -/
theorem readdir_zero_skip_cursor :
    (∀ n, iso_readdir cacheSkip dirTwo 68 (2 + n)
      = some (some { d_ino := 0, d_off := 1, d_reclen := 42, d_type := inode_mode.I_FILE,
                     d_name := [102, 111, 111, 46, 116, 120, 116, 0] }, 43, [20, 21]))
    ∧ readdir_step cacheSkip dirTwo.blocks (readdir_init dirTwo 68)
        = ReaddirStep.cont
            { file_offset := 1, block := 21, offset := 68, i := 1, data := none, reqs := [20] }
    ∧ byteAt (cacheSkip 20) 68 = 0
    ∧ cacheSkip 21 = recFill 0 ++ recFill 0 ++ recFoo ++ List.replicate 1938 0
    ∧ byteAt (cacheSkip 21) 0 = 34
    ∧ (cacheSkip 20).length = BLOCK_SIZE ∧ (cacheSkip 21).length = BLOCK_SIZE := by
  refine ⟨fun n => iso_readdir_mono cacheSkip dirTwo 68 2 _ (by decide!) n, by decide!,
    by decide!, by decide!, by decide!, by decide!, by decide!⟩

/-- C15 fails on a one-block directory at block 20 whose block is filled to its
last byte by ten records. Ten calls from the cursor 0 return these records
and leave the cursor at 2048 = blocks * block size. The next call computes the
block 20 + 1, counts it as the first block of its budget, and asks the cache for
block 21, which lies outside [20, 21); it returns the record "FOO.TXT;1" found
there and not the end of the directory. -/
theorem readdir_leaves_directory :
    readdir_seek cacheFull dirOne 1 10 0 = some 2048
    ∧ (∀ n, iso_readdir cacheFull dirOne 2048 (1 + n)
        = some (some { d_ino := 0, d_off := 2048, d_reclen := 42, d_type := inode_mode.I_FILE,
                       d_name := [102, 111, 111, 46, 116, 120, 116, 0] }, 2090, [21]))
    ∧ dirOne.pvt = 20 ∧ dirOne.blocks = 1
    ∧ (cacheFull 20).length = BLOCK_SIZE
    ∧ cacheFull 21 = recFoo ++ List.replicate 2006 0 := by
  refine ⟨by decide!, fun n => iso_readdir_mono cacheFull dirOne 2048 1 _ (by decide!) n,
    by decide!, by decide!, by decide!, by decide!⟩

/-! ## The blocks that iso_find_entry asks for -/

theorem find_check_cases (dname : List Nat) (L : Nat) (tmp : Bool) (de : List Nat)
    (s : FindState) :
    find_check dname L tmp de s = FindStep.cont s
      ∨ ∃ r, find_check dname L tmp de s = FindStep.done r s := by
  unfold find_check
  by_cases h1 : L < 33
  · exact Or.inr ⟨none, by simp [h1]⟩
  · by_cases h2 : iso_compare_name (normalize_name de).1 (normalize_name de).2 dname ≠ 0
    · exact Or.inr ⟨_, by rw [if_neg h1, if_pos h2]⟩
    · exact Or.inl (by rw [if_neg h1, if_neg h2])

theorem find_body_inv (get_cache : Nat → List Nat) (dname : List Nat) (blocks extent : Nat)
    (d : List Nat) (s : FindState)
    (h1 : s.reqs = List.range' extent s.i) (h2 : s.i ≤ blocks)
    (h3 : s.dir_block = extent + s.i) :
    (∃ s2, find_body get_cache dname blocks d s = FindStep.cont s2
        ∧ s2.reqs = List.range' extent s2.i ∧ s2.i ≤ blocks ∧ s2.dir_block = extent + s2.i)
    ∨ (∃ r s2 n, find_body get_cache dname blocks d s = FindStep.done r s2
        ∧ n ≤ blocks ∧ s2.reqs = List.range' extent n) := by
  unfold find_body
  simp only []
  by_cases hz : de_length (d.drop s.offset) = 0
  · rw [if_pos hz]
    exact Or.inl ⟨s, rfl, h1, h2, h3⟩
  · rw [if_neg hz]
    by_cases hge : s.offset + de_length (d.drop s.offset) ≥ BLOCK_SIZE
    · rw [if_pos hge]
      by_cases hm : (s.offset + de_length (d.drop s.offset)) &&& (BLOCK_SIZE - 1) ≠ 0
      · rw [if_pos hm]
        by_cases hbud : s.i + 1 > blocks
        · rw [if_pos hbud]
          exact Or.inr ⟨none, _, s.i, rfl, h2, h1⟩
        · rw [if_neg hbud]
          have hr : s.reqs ++ [s.dir_block] = List.range' extent (s.i + 1) := by
            rw [List.range'_concat, h1, h3]
            simp
          rcases find_check_cases dname (de_length (d.drop s.offset)) true
            ((d.drop s.offset).take (de_length (d.drop s.offset) + BLOCK_SIZE
                - (s.offset + de_length (d.drop s.offset)))
              ++ (get_cache s.dir_block).take
                ((s.offset + de_length (d.drop s.offset)) &&& (BLOCK_SIZE - 1)))
            { i := s.i + 1,
              offset := (s.offset + de_length (d.drop s.offset)) &&& (BLOCK_SIZE - 1),
              data := some (get_cache s.dir_block), dir_block := s.dir_block + 1,
              reqs := s.reqs ++ [s.dir_block] } with hc | ⟨r, hc⟩
          · rw [hc]
            refine Or.inl ⟨_, rfl, hr, ?_, ?_⟩
            · show s.i + 1 ≤ blocks
              omega
            · show s.dir_block + 1 = extent + (s.i + 1)
              omega
          · rw [hc]
            exact Or.inr ⟨r, _, s.i + 1, rfl, by omega, hr⟩
      · rw [if_neg hm]
        rcases find_check_cases dname (de_length (d.drop s.offset)) true
          ((d.drop s.offset).take (de_length (d.drop s.offset) + BLOCK_SIZE
              - (s.offset + de_length (d.drop s.offset))))
          { s with offset := (s.offset + de_length (d.drop s.offset)) &&& (BLOCK_SIZE - 1) }
          with hc | ⟨r, hc⟩
        · rw [hc]
          exact Or.inl ⟨_, rfl, h1, h2, h3⟩
        · rw [hc]
          exact Or.inr ⟨r, _, s.i, rfl, h2, h1⟩
    · rw [if_neg hge]
      rcases find_check_cases dname (de_length (d.drop s.offset)) false (d.drop s.offset)
        { s with offset := s.offset + de_length (d.drop s.offset) } with hc | ⟨r, hc⟩
      · rw [hc]
        exact Or.inl ⟨_, rfl, h1, h2, h3⟩
      · rw [hc]
        exact Or.inr ⟨r, _, s.i, rfl, h2, h1⟩

theorem find_step_inv (get_cache : Nat → List Nat) (dname : List Nat) (blocks extent : Nat)
    (s : FindState)
    (h1 : s.reqs = List.range' extent s.i) (h2 : s.i ≤ blocks)
    (h3 : s.dir_block = extent + s.i) :
    (∃ s2, find_step get_cache dname blocks s = FindStep.cont s2
        ∧ s2.reqs = List.range' extent s2.i ∧ s2.i ≤ blocks ∧ s2.dir_block = extent + s2.i)
    ∨ (∃ r s2 n, find_step get_cache dname blocks s = FindStep.done r s2
        ∧ n ≤ blocks ∧ s2.reqs = List.range' extent n) := by
  unfold find_step
  cases hd : s.data with
  | some d =>
    simp only []
    exact find_body_inv get_cache dname blocks extent d s h1 h2 h3
  | none =>
    simp only []
    by_cases hbud : s.i + 1 > blocks
    · rw [if_pos hbud]
      exact Or.inr ⟨none, _, s.i, rfl, h2, h1⟩
    · rw [if_neg hbud]
      apply find_body_inv
      · show s.reqs ++ [s.dir_block] = List.range' extent (s.i + 1)
        rw [List.range'_concat, h1, h3]
        simp
      · show s.i + 1 ≤ blocks
        omega
      · show s.dir_block + 1 = extent + (s.i + 1)
        omega

theorem find_run_inv (get_cache : Nat → List Nat) (dname : List Nat) (blocks extent : Nat) :
    ∀ (k : Nat) (s : FindState),
      s.reqs = List.range' extent s.i → s.i ≤ blocks → s.dir_block = extent + s.i →
      ∃ n, n ≤ blocks
        ∧ (find_run get_cache dname blocks k s).state.reqs = List.range' extent n := by
  intro k
  induction k with
  | zero =>
    intro s h1 h2 _
    exact ⟨s.i, h2, h1⟩
  | succ k ih =>
    intro s h1 h2 h3
    rw [find_run]
    rcases find_step_inv get_cache dname blocks extent s h1 h2 h3 with
      ⟨s2, hs, i1, i2, i3⟩ | ⟨r, s2, n, hs, hn, hr⟩
    · rw [hs]
      exact ih s2 i1 i2 i3
    · rw [hs]
      exact ⟨n, hn, hr⟩

theorem find_loop_eq_run (get_cache : Nat → List Nat) (dname : List Nat) (blocks : Nat) :
    ∀ (fuel : Nat) (s : FindState) (r : Option DePtr) (s2 : FindState),
      find_loop get_cache dname blocks fuel s = some (r, s2) →
      find_run get_cache dname blocks fuel s = FindStep.done r s2 := by
  intro fuel
  induction fuel with
  | zero => intro s r s2 h; simp [find_loop] at h
  | succ k ih =>
    intro s r s2 h
    rw [find_loop] at h
    rw [find_run]
    cases hs : find_step get_cache dname blocks s with
    | cont s3 =>
      rw [hs] at h
      exact ih s3 r s2 h
    | done r3 s3 =>
      rw [hs] at h
      simp only [Option.some.injEq, Prod.mk.injEq] at h
      rw [h.1, h.2]

/-- C17: whatever the blocks hold and whatever the query, after any number k of
iterations of iso_find_entry, the return included, the blocks asked from the
cache so far are extent, extent + 1, ..., extent + n - 1 in this order for some
n <= inode.blocks, so they are pairwise different and lie in
[extent, extent + blocks); with inode.blocks = 0 the first iteration returns
NULL and no block has been asked for. -/
theorem find_requests_in_order (get_cache : Nat → List Nat) (dname : List Nat) (dir : inode)
    (k : Nat) :
    (∃ n, n ≤ dir.blocks
      ∧ (find_run get_cache dname dir.blocks k (find_init dir)).state.reqs
          = List.range' dir.pvt n
      ∧ (find_run get_cache dname dir.blocks k (find_init dir)).state.reqs.Nodup
      ∧ (find_run get_cache dname dir.blocks k (find_init dir)).state.reqs.length
          ≤ dir.blocks)
    ∧ find_loop get_cache dname 0 (k + 1) (find_init { dir with blocks := 0 })
        = some (none, { i := 1, offset := 0, data := none, dir_block := dir.pvt, reqs := [] })
    ∧ iso_find_entry get_cache dname { dir with blocks := 0 } (k + 1) = some none := by
  refine ⟨?_, rfl, rfl⟩
  obtain ⟨n, hn, hr⟩ := find_run_inv get_cache dname dir.blocks dir.pvt k (find_init dir)
    rfl (Nat.zero_le _) rfl
  refine ⟨n, hn, hr, ?_, ?_⟩
  · rw [hr]
    exact List.nodup_range' dir.pvt n
  · rw [hr, List.length_range']
    exact hn

/-! ## Termination of iso_readdir -/

theorem readdir_check_cases (L : Nat) (de : List Nat) (s : ReaddirState) :
    ∃ e, readdir_check L de s = ReaddirStep.exit e ∧ e.state = s := by
  unfold readdir_check
  by_cases h : L < 33
  · exact ⟨ReaddirExit.null s, by rw [if_pos h], rfl⟩
  · exact ⟨ReaddirExit.brk L de s, by rw [if_neg h], rfl⟩

theorem readdir_body_cases (get_cache : Nat → List Nat) (blocks : Nat) (d : List Nat)
    (s : ReaddirState) :
    (∃ s2, readdir_body get_cache blocks d s = ReaddirStep.cont s2
        ∧ s2.data = none ∧ s2.i = s.i ∧ s2.reqs = s.reqs)
    ∨ (∃ e, readdir_body get_cache blocks d s = ReaddirStep.exit e
        ∧ (e.state.reqs = s.reqs
            ∨ (e.state.reqs = s.reqs ++ [s.block] ∧ s.i + 1 ≤ blocks))) := by
  unfold readdir_body
  simp only []
  by_cases hz : de_length (d.drop s.offset) = 0
  · rw [if_pos hz]
    exact Or.inl ⟨_, rfl, rfl, rfl, rfl⟩
  · rw [if_neg hz]
    right
    by_cases hge : s.offset + de_length (d.drop s.offset) ≥ BLOCK_SIZE
    · rw [if_pos hge]
      by_cases hm : (s.offset + de_length (d.drop s.offset)) &&& (BLOCK_SIZE - 1) ≠ 0
      · rw [if_pos hm]
        by_cases hbud : s.i + 1 > blocks
        · rw [if_pos hbud]
          exact ⟨_, rfl, Or.inl rfl⟩
        · rw [if_neg hbud]
          obtain ⟨e, he, hst⟩ := readdir_check_cases (de_length (d.drop s.offset))
            ((d.drop s.offset).take (de_length (d.drop s.offset) + BLOCK_SIZE
                - (s.offset + de_length (d.drop s.offset)))
              ++ (get_cache s.block).take
                ((s.offset + de_length (d.drop s.offset)) &&& (BLOCK_SIZE - 1)))
            { s with i := s.i + 1,
                     offset := (s.offset + de_length (d.drop s.offset)) &&& (BLOCK_SIZE - 1),
                     data := some (get_cache s.block), block := s.block + 1,
                     reqs := s.reqs ++ [s.block] }
          rw [he]
          refine ⟨e, rfl, Or.inr ⟨?_, by omega⟩⟩
          rw [hst]
      · rw [if_neg hm]
        obtain ⟨e, he, hst⟩ := readdir_check_cases (de_length (d.drop s.offset))
          ((d.drop s.offset).take (de_length (d.drop s.offset) + BLOCK_SIZE
              - (s.offset + de_length (d.drop s.offset))))
          { s with offset := (s.offset + de_length (d.drop s.offset)) &&& (BLOCK_SIZE - 1) }
        rw [he]
        refine ⟨e, rfl, Or.inl ?_⟩
        rw [hst]
    · rw [if_neg hge]
      obtain ⟨e, he, hst⟩ := readdir_check_cases (de_length (d.drop s.offset)) (d.drop s.offset)
        { s with offset := s.offset + de_length (d.drop s.offset) }
      rw [he]
      refine ⟨e, rfl, Or.inl ?_⟩
      rw [hst]

theorem readdir_loop_total (get_cache : Nat → List Nat) (blocks : Nat) :
    ∀ (n : Nat) (s : ReaddirState),
      s.data = none → s.reqs.length = s.i → s.i ≤ blocks → blocks + 1 ≤ s.i + n →
      ∃ e, readdir_loop get_cache blocks n s = some e ∧ e.state.reqs.length ≤ blocks := by
  intro n
  induction n with
  | zero =>
    intro s _ _ h3 h4
    omega
  | succ n ih =>
    intro s h1 h2 h3 h4
    rw [readdir_loop]
    unfold readdir_step
    rw [h1]
    simp only []
    by_cases hbud : s.i + 1 > blocks
    · rw [if_pos hbud]
      refine ⟨_, rfl, ?_⟩
      show s.reqs.length ≤ blocks
      omega
    · rw [if_neg hbud]
      rcases readdir_body_cases get_cache blocks (get_cache s.block)
        { s with i := s.i + 1, data := some (get_cache s.block), block := s.block + 1,
                 reqs := s.reqs ++ [s.block] } with
        ⟨s2, hs, d2, i2, r2⟩ | ⟨e, hs, hr⟩
      · rw [hs]
        simp only [] at i2 r2
        apply ih s2 d2
        · rw [r2, i2, List.length_append, h2]
          rfl
        · rw [i2]
          omega
        · rw [i2]
          omega
      · rw [hs]
        refine ⟨e, rfl, ?_⟩
        simp only [] at hr
        rcases hr with hr | ⟨hr, hb⟩
        · rw [hr, List.length_append, h2]
          simp only [List.length_singleton]
          omega
        · rw [hr, List.length_append, List.length_append, h2]
          simp only [List.length_singleton]
          omega

/-- C18: every call of iso_readdir ends. Whatever the blocks hold, whatever the
cursor c and the block count of the inode, the loop ends within blocks + 1
iterations, by a return of NULL or by its `break`, and it has then asked the
cache for at most inode.blocks blocks; more iterations allowed change
nothing. -/
theorem readdir_terminates (get_cache : Nat → List Nat) (dir : inode) (c n : Nat) :
    ∃ e, readdir_loop get_cache dir.blocks (dir.blocks + 1) (readdir_init dir c) = some e
      ∧ e.state.reqs.length ≤ dir.blocks
      ∧ iso_readdir get_cache dir c (dir.blocks + 1) = some (readdir_finish e)
      ∧ iso_readdir get_cache dir c (dir.blocks + 1 + n) = some (readdir_finish e)
      ∧ (readdir_finish e).2.2.length ≤ dir.blocks := by
  obtain ⟨e, he, hl⟩ := readdir_loop_total get_cache dir.blocks (dir.blocks + 1)
    (readdir_init dir c) rfl rfl (Nat.zero_le _) (by show dir.blocks + 1 ≤ 0 + (dir.blocks + 1); omega)
  have hrun : iso_readdir get_cache dir c (dir.blocks + 1) = some (readdir_finish e) := by
    unfold iso_readdir
    rw [he]
    rfl
  refine ⟨e, he, hl, hrun, iso_readdir_mono get_cache dir c _ _ hrun n, ?_⟩
  cases e with
  | null s => exact hl
  | brk L de s => exact hl

/-! ## Records shorter than 33 bytes -/

/-- C11 as stated fails when the short record crosses the end of its block: in
the two-block directory whose block 20 holds eight records and then the length
byte 20 at offset 2040, iso_find_entry (after eight iterations) and iso_readdir
(called with the cursor 2040, which eight calls reach) both return NULL, but
only after they have asked the cache for block 21 as well: the test
`de_len < 33` comes after the code that completes a record from the next
block. -/
theorem short_record_fetches_next_block :
    (find_loop cacheShort nameFoo dirTwo.blocks 9 (find_init dirTwo)).map
        (fun r => (r.1, r.2.reqs)) = some (none, [20, 21])
    ∧ readdir_seek cacheShort dirTwo 1 8 0 = some 2040
    ∧ iso_readdir cacheShort dirTwo 2040 1 = some (none, 2040, [20, 21])
    ∧ byteAt (cacheShort 20) 2040 = 20
    ∧ (cacheShort 20).length = BLOCK_SIZE := by
  decide!

/-- C11 (amended): an iteration of iso_find_entry or of iso_readdir that finds,
at an in-block offset o of the held block, a length byte L in 1..32 ends the call
with NULL. It asks the cache for no further block when o + L does not pass the
end of the block, or when the block budget is used up; when o + L passes the end
of the block and the budget allows one more block, it asks for the next block
before it returns NULL. -/
theorem short_record_aborts (get_cache : Nat → List Nat) (dname : List Nat) (blocks : Nat)
    (d : List Nat) (s : FindState) (rs : ReaddirState)
    (hso : s.offset < BLOCK_SIZE) (hs1 : 1 ≤ byteAt d s.offset) (hs2 : byteAt d s.offset ≤ 32)
    (hro : rs.offset < BLOCK_SIZE) (hr1 : 1 ≤ byteAt d rs.offset)
    (hr2 : byteAt d rs.offset ≤ 32) :
    (∃ s2, find_body get_cache dname blocks d s = FindStep.done none s2
      ∧ s2.reqs = (if BLOCK_SIZE < s.offset + byteAt d s.offset ∧ s.i + 1 ≤ blocks
          then s.reqs ++ [s.dir_block] else s.reqs))
    ∧ (∃ rs2, readdir_body get_cache blocks d rs = ReaddirStep.exit (ReaddirExit.null rs2)
      ∧ rs2.reqs = (if BLOCK_SIZE < rs.offset + byteAt d rs.offset ∧ rs.i + 1 ≤ blocks
          then rs.reqs ++ [rs.block] else rs.reqs)) := by
  have hbs := BLOCK_SIZE_eq
  constructor
  · have hL : de_length (d.drop s.offset) = byteAt d s.offset := by
      simp [de_length, byteAt_drop]
    have hne : byteAt d s.offset ≠ 0 := by omega
    have h33 : byteAt d s.offset < 33 := by omega
    by_cases hge : s.offset + byteAt d s.offset ≥ BLOCK_SIZE
    · have hmask := mask_block _ hge (by omega)
      by_cases hm : s.offset + byteAt d s.offset - BLOCK_SIZE ≠ 0
      · by_cases hbud : s.i + 1 > blocks
        · refine ⟨{ s with i := s.i + 1,
                           offset := s.offset + byteAt d s.offset - BLOCK_SIZE }, ?_, ?_⟩
          · simp only [find_body, hL, hne, hge, hmask, hm, hbud, if_true, if_false, ne_eq,
              not_false_eq_true]
          · show s.reqs = _
            rw [if_neg (by omega)]
        · refine ⟨{ i := s.i + 1, offset := s.offset + byteAt d s.offset - BLOCK_SIZE,
                    data := some (get_cache s.dir_block), dir_block := s.dir_block + 1,
                    reqs := s.reqs ++ [s.dir_block] }, ?_, ?_⟩
          · simp only [find_body, hL, hne, hge, hmask, hm, hbud, if_true, if_false, ne_eq,
              not_false_eq_true, find_check, h33]
          · show s.reqs ++ [s.dir_block] = _
            rw [if_pos ⟨by omega, by omega⟩]
      · refine ⟨{ s with offset := s.offset + byteAt d s.offset - BLOCK_SIZE }, ?_, ?_⟩
        · simp only [find_body, hL, hne, hge, hmask, hm, if_true, if_false, find_check, h33]
        · show s.reqs = _
          rw [if_neg (by omega)]
    · refine ⟨{ s with offset := s.offset + byteAt d s.offset }, ?_, ?_⟩
      · simp only [find_body, hL, hne, hge, if_false, find_check, h33, if_true]
      · show s.reqs = _
        rw [if_neg (by omega)]
  · have hL : de_length (d.drop rs.offset) = byteAt d rs.offset := by
      simp [de_length, byteAt_drop]
    have hne : byteAt d rs.offset ≠ 0 := by omega
    have h33 : byteAt d rs.offset < 33 := by omega
    by_cases hge : rs.offset + byteAt d rs.offset ≥ BLOCK_SIZE
    · have hmask := mask_block _ hge (by omega)
      by_cases hm : rs.offset + byteAt d rs.offset - BLOCK_SIZE ≠ 0
      · by_cases hbud : rs.i + 1 > blocks
        · refine ⟨{ rs with i := rs.i + 1,
                            offset := rs.offset + byteAt d rs.offset - BLOCK_SIZE }, ?_, ?_⟩
          · simp only [readdir_body, hL, hne, hge, hmask, hm, hbud, if_true, if_false, ne_eq,
              not_false_eq_true]
          · show rs.reqs = _
            rw [if_neg (by omega)]
        · refine ⟨{ rs with i := rs.i + 1,
                            offset := rs.offset + byteAt d rs.offset - BLOCK_SIZE,
                            data := some (get_cache rs.block), block := rs.block + 1,
                            reqs := rs.reqs ++ [rs.block] }, ?_, ?_⟩
          · simp only [readdir_body, hL, hne, hge, hmask, hm, hbud, if_true, if_false, ne_eq,
              not_false_eq_true, readdir_check, h33]
          · show rs.reqs ++ [rs.block] = _
            rw [if_pos ⟨by omega, by omega⟩]
      · refine ⟨{ rs with offset := rs.offset + byteAt d rs.offset - BLOCK_SIZE }, ?_, ?_⟩
        · simp only [readdir_body, hL, hne, hge, hmask, hm, if_true, if_false, readdir_check,
            h33]
        · show rs.reqs = _
          rw [if_neg (by omega)]
    · refine ⟨{ rs with offset := rs.offset + byteAt d rs.offset }, ?_, ?_⟩
      · simp only [readdir_body, hL, hne, hge, if_false, readdir_check, h33, if_true]
      · show rs.reqs = _
        rw [if_neg (by omega)]

/-- C11 (amended), on the directory of the counterexample with a budget of two
blocks: both iterations return NULL after they have asked for block 21; and on
the one-block budget of the same block they return NULL without a request. -/
theorem short_record_aborts_witness :
    (stateShort.offset < BLOCK_SIZE ∧ 1 ≤ byteAt blockShort stateShort.offset
      ∧ byteAt blockShort stateShort.offset ≤ 32
      ∧ rstateShort.offset < BLOCK_SIZE ∧ 1 ≤ byteAt blockShort rstateShort.offset
      ∧ byteAt blockShort rstateShort.offset ≤ 32)
    ∧ (∃ s2, find_body cacheShort nameFoo 2 blockShort stateShort = FindStep.done none s2
        ∧ s2.reqs = (if BLOCK_SIZE < stateShort.offset + byteAt blockShort stateShort.offset
              ∧ stateShort.i + 1 ≤ 2
            then stateShort.reqs ++ [stateShort.dir_block] else stateShort.reqs))
    ∧ (find_body cacheShort nameFoo 2 blockShort stateShort).state.reqs = [20, 21]
    ∧ (find_body cacheShort nameFoo 1 blockShort stateShort).state.reqs = [20] :=
  ⟨⟨by decide!, by decide!, by decide!, by decide!, by decide!, by decide!⟩,
    (short_record_aborts cacheShort nameFoo 2 blockShort stateShort rstateShort
      (by decide!) (by decide!) (by decide!) (by decide!) (by decide!) (by decide!)).1,
    by decide!, by decide!⟩

/-! ## The canonical form of a mangled name -/

theorem cstr_mangle (F : Nat) (b q term : List Nat)
    (hq : ∀ c ∈ q, 32 < c) (ht : not_whitespace (byteAt term 0) = false)
    (hql : q.length < F) (hb : b.length = F) :
    cstr (iso_mangle_name F b (q ++ term)) = mangleKey q ∧ (mangleKey q).length < F := by
  have h := iso_mangle_name_eq F b q term hq ht hql (by omega)
  have hwl := collapseSlashes_length_le q
  obtain ⟨tl, htl⟩ := mangleKey_split q
  have hkl : (mangleKey q).length + tl.length = (collapseSlashes q).length := by
    rw [← htl, List.length_append]
  obtain ⟨n, hn⟩ : ∃ n, F - q.length + (collapseSlashes q).length - (mangleKey q).length
      = n + 1 := ⟨F - q.length + (collapseSlashes q).length - (mangleKey q).length - 1, by omega⟩
  rw [h, hn, List.replicate_succ, List.append_assoc, List.cons_append]
  refine ⟨cstr_append_nul _ _ ?_, by omega⟩
  intro c hc
  have := hq c (mangleKey_mem q c hc)
  omega

theorem byteAt_zero_of_head (l : List Nat) (y : Nat) (h : l.head? = some y) : byteAt l 0 = y := by
  cases l with
  | nil => simp at h
  | cons a l =>
    simp only [List.head?_cons, Option.some.injEq] at h
    simp [byteAt, h]

theorem collapseSlashes_head (l : List Nat) (h : byteAt (collapseSlashes l) 0 = 47) :
    byteAt l 0 = 47 := by
  induction l with
  | nil => simpa [collapseSlashes] using h
  | cons c rest ih =>
    unfold collapseSlashes at h
    by_cases hs : c = 47 ∧ byteAt rest 0 = 47
    · simp [byteAt, hs.1]
    · rw [if_neg hs] at h
      simpa [byteAt] using h

theorem collapseSlashes_chain (l : List Nat) :
    List.Chain' (fun a b => ¬ (a = 47 ∧ b = 47)) (collapseSlashes l) := by
  induction l with
  | nil => simp [collapseSlashes]
  | cons c rest ih =>
    unfold collapseSlashes
    by_cases hs : c = 47 ∧ byteAt rest 0 = 47
    · rw [if_pos hs]
      exact ih
    · rw [if_neg hs]
      rw [List.chain'_cons']
      refine ⟨?_, ih⟩
      intro y hy hcy
      apply hs
      refine ⟨hcy.1, collapseSlashes_head rest ?_⟩
      rw [byteAt_zero_of_head _ y hy]
      exact hcy.2

theorem collapseSlashes_of_chain (l : List Nat)
    (h : List.Chain' (fun a b => ¬ (a = 47 ∧ b = 47)) l) : collapseSlashes l = l := by
  induction l with
  | nil => simp [collapseSlashes]
  | cons c rest ih =>
    rw [List.chain'_cons'] at h
    have hs : ¬ (c = 47 ∧ byteAt rest 0 = 47) := by
      rintro ⟨h1, h2⟩
      cases rest with
      | nil => simp [byteAt] at h2
      | cons a rest2 =>
        have ha : a = 47 := by simpa [byteAt] using h2
        exact h.1 a (by simp) ⟨h1, ha⟩
    unfold collapseSlashes
    rw [if_neg hs, ih h.2]

theorem mangleKey_last (p : List Nat) :
    (mangleKey p).getLast? ≠ some 46 ∧ (mangleKey p).getLast? ≠ some 47 := by
  by_cases hl : mangleKey p = []
  · rw [hl]
    simp
  · have h := List.rdropWhile_last_not isDotSlash (collapseSlashes p) hl
    have e : (mangleKey p).getLast? = some ((mangleKey p).getLast hl) :=
      List.getLast?_eq_getLast _ hl
    rw [e]
    constructor
    · intro h46
      apply h
      have : (mangleKey p).getLast hl = 46 := by simpa using h46
      show isDotSlash ((mangleKey p).getLast hl) = true
      rw [this]
      rfl
    · intro h47
      apply h
      have : (mangleKey p).getLast hl = 47 := by simpa using h47
      show isDotSlash ((mangleKey p).getLast hl) = true
      rw [this]
      rfl

theorem mangleKey_idem (p : List Nat) : mangleKey (mangleKey p) = mangleKey p := by
  obtain ⟨tl, htl⟩ := mangleKey_split p
  have hch : List.Chain' (fun a b => ¬ (a = 47 ∧ b = 47)) (mangleKey p) := by
    have := collapseSlashes_chain p
    rw [← htl] at this
    exact this.left_of_append
  have hcol : collapseSlashes (mangleKey p) = mangleKey p := collapseSlashes_of_chain _ hch
  have hlast := mangleKey_last p
  show (collapseSlashes (mangleKey p)).rdropWhile isDotSlash = mangleKey p
  rw [hcol, List.rdropWhile_eq_self_iff]
  intro hl
  have e : (mangleKey p).getLast? = some ((mangleKey p).getLast hl) :=
    List.getLast?_eq_getLast _ hl
  intro hd
  have hcase : (mangleKey p).getLast hl = 46 ∨ (mangleKey p).getLast hl = 47 := by
    simpa [isDotSlash] using hd
  rcases hcase with h | h
  · exact hlast.1 (by rw [e, h])
  · exact hlast.2 (by rw [e, h])

/-- C20: for a source whose part p before the first whitespace byte is shorter
than FILENAME_MAX, the NUL-terminated key that iso_mangle_name leaves in the
destination has no byte <= ' ', no two adjacent slashes, and no dot or slash at
its end; and the key of that key, mangled into any destination buffer, is the
key itself. -/
theorem mangle_key_canonical (F : Nat) (dst dst2 p term : List Nat)
    (hp : ∀ c ∈ p, 32 < c) (ht : not_whitespace (byteAt term 0) = false)
    (hlen : p.length < F) (hd : dst.length = F) (hd2 : dst2.length = F) :
    (∀ c ∈ cstr (iso_mangle_name F dst (p ++ term)), 32 < c)
    ∧ List.Chain' (fun a b => ¬ (a = 47 ∧ b = 47)) (cstr (iso_mangle_name F dst (p ++ term)))
    ∧ (cstr (iso_mangle_name F dst (p ++ term))).getLast? ≠ some 46
    ∧ (cstr (iso_mangle_name F dst (p ++ term))).getLast? ≠ some 47
    ∧ (cstr (iso_mangle_name F dst (p ++ term))).length < F
    ∧ cstr (iso_mangle_name F dst2 (cstr (iso_mangle_name F dst (p ++ term))))
        = cstr (iso_mangle_name F dst (p ++ term)) := by
  obtain ⟨hk, hkl⟩ := cstr_mangle F dst p term hp ht hlen hd
  obtain ⟨tl, htl⟩ := mangleKey_split p
  have hmem : ∀ c ∈ mangleKey p, 32 < c := fun c hc => hp c (mangleKey_mem p c hc)
  have hch : List.Chain' (fun a b => ¬ (a = 47 ∧ b = 47)) (mangleKey p) := by
    have := collapseSlashes_chain p
    rw [← htl] at this
    exact this.left_of_append
  have hlast := mangleKey_last p
  have h2 := cstr_mangle F dst2 (mangleKey p) [] hmem (by simp [byteAt, not_whitespace]) hkl hd2
  rw [List.append_nil, mangleKey_idem] at h2
  rw [hk]
  exact ⟨hmem, hch, hlast.1, hlast.2, hkl, h2.1⟩

/-- C20, at the source "/boot//isolinux/." followed by a space and further
bytes, with FILENAME_MAX = 256: the key is "/boot/isolinux", and mangling it
again gives "/boot/isolinux". -/
theorem mangle_key_canonical_witness :
    ((∀ c ∈ [47, 98, 111, 111, 116, 47, 47, 105, 115, 111, 108, 105, 110, 117, 120, 47, 46],
        32 < c)
      ∧ not_whitespace (byteAt [32, 120] 0) = false
      ∧ [47, 98, 111, 111, 116, 47, 47, 105, 115, 111, 108, 105, 110, 117, 120, 47, 46].length
          < 256)
    ∧ mangleKey [47, 98, 111, 111, 116, 47, 47, 105, 115, 111, 108, 105, 110, 117, 120, 47, 46]
        = [47, 98, 111, 111, 116, 47, 105, 115, 111, 108, 105, 110, 117, 120]
    ∧ cstr (iso_mangle_name 256 (List.replicate 256 0)
          (cstr (iso_mangle_name 256 (List.replicate 256 255)
            ([47, 98, 111, 111, 116, 47, 47, 105, 115, 111, 108, 105, 110, 117, 120, 47, 46]
              ++ [32, 120]))))
        = cstr (iso_mangle_name 256 (List.replicate 256 255)
            ([47, 98, 111, 111, 116, 47, 47, 105, 115, 111, 108, 105, 110, 117, 120, 47, 46]
              ++ [32, 120])) :=
  ⟨⟨by decide, by decide, by decide⟩, by decide,
    (mangle_key_canonical 256 (List.replicate 256 255) (List.replicate 256 0)
      [47, 98, 111, 111, 116, 47, 47, 105, 115, 111, 108, 105, 110, 117, 120, 47, 46] [32, 120]
      (by decide) (by decide) (by decide) (List.length_replicate 256 255)
      (List.length_replicate 256 0)).2.2.2.2.2⟩

end Iso9660
